import Mathlib

/-!
Verification development for the batch_process rule-dispatch engine.

The definitions below are a shallow embedding of the Python sources:
  * `src/utils/nested_dicts.py`   (nested-dict store operations)
  * `src/decorators/processor.py` (ProcessingContext and its store helpers)
  * `src/core/engine.py`          (BatchProcessor: traversal, resolution,
                                   execution, progress and cancellation)

Python dicts are modelled as insertion-ordered association lists with
unique keys (`Ent`); a stored object is either a non-dict leaf value or a
nested dict (`NTree`).  Machine integers do not overflow in the modelled
code paths, so counters are `Nat`/`Int`.  Python exceptions are modelled
as an `Option String` error component threaded next to the mutated store,
so that state changes made before a raise are kept, exactly as in-place
mutation keeps them.
-/

set_option maxHeartbeats 1000000

namespace BatchProc

/-- Python primitive (non-dict) values that appear at store leaves. -/
inductive PyV where
  | vnone : PyV
  | vint : Int → PyV
  | vstr : String → PyV
deriving DecidableEq

/-- A Python object held in a nested store: either a non-dict value
(`leaf`) or a dict (`node`), the latter an insertion-ordered association
list as Python dicts preserve insertion order. -/
inductive NTree (α : Type) where
  | leaf : α → NTree α
  | node : List (String × NTree α) → NTree α

/-- The entry list of one dict level. -/
abbrev Ent (α : Type) := List (String × NTree α)

/-- `d[key]` lookup (first matching key; keys are unique in practice). -/
def alistGet {α : Type} : Ent α → String → Option (NTree α)
  | [], _ => Option.none
  | (k, v) :: rest, key => if k = key then some v else alistGet rest key

/-- `d[key] = v`: overwrite in place (keeping the key's position, as
Python dicts do) or append a new entry. -/
def alistSet {α : Type} : Ent α → String → NTree α → Ent α
  | [], key, v => [(key, v)]
  | (k, w) :: rest, key, v =>
      if k = key then (k, v) :: rest else (k, w) :: alistSet rest key v

/-- `d.pop(key, None)` on the entry list: drop the entry if present. -/
def alistPop {α : Type} : Ent α → String → Ent α
  | [], _ => []
  | (k, w) :: rest, key => if k = key then rest else (k, w) :: alistPop rest key

/-- The keys of one dict level. -/
def keysOf {α : Type} (d : Ent α) : List String := d.map Prod.fst

mutual

/-- Well-formedness: every dict level has pairwise distinct keys
(true of every real Python dict). -/
def wfT {α : Type} : NTree α → Bool
  | NTree.leaf _ => true
  | NTree.node d => wfEnts d

/-- Well-formedness of a dict's entry list. -/
def wfEnts {α : Type} : Ent α → Bool
  | [] => true
  | (k, v) :: rest =>
      !(keysOf rest).contains k && wfT v && wfEnts rest

end

/-- A store path: a single (non-list) key or a list of keys, as accepted
by the `*_dict_data` helpers. -/
inductive KeyPath where
  | single : String → KeyPath
  | klist : List String → KeyPath

/-- The intermediate walk of `set_dict_data` (`src/utils/nested_dicts.py`
lines 17-32) on a non-empty key list: create missing intermediate dicts,
raise `TypeError` when an existing intermediate is not a dict, assign at
the last key.  The returned store reflects every mutation made before a
raise (in-place semantics). -/
def setWalk {α : Type} : Ent α → List String → NTree α → Option String × Ent α
  | d, [], _ => (Option.none, d)
  | d, [k], v => (Option.none, alistSet d k v)
  | d, k :: k2 :: rest, v =>
      match alistGet d k with
      | Option.none =>
          let r := setWalk ([] : Ent α) (k2 :: rest) v
          (r.1, alistSet d k (NTree.node r.2))
      | some (NTree.node sub) =>
          let r := setWalk sub (k2 :: rest) v
          (r.1, alistSet d k (NTree.node r.2))
      | some (NTree.leaf _) => (some "TypeError", d)

/-- `set_dict_data` from `src/utils/nested_dicts.py`: the version with the
early `return` on non-list keys. -/
def set_dict_data {α : Type} (d : Ent α) : KeyPath → NTree α → Option String × Ent α
  | KeyPath.single k, v => (Option.none, alistSet d k v)
  | KeyPath.klist [], _ => (some "ValueError", d)
  | KeyPath.klist (k :: rest), v => setWalk d (k :: rest) v

/-- `set_dict_data` from `src/decorators/processor.py` lines 10-32: the
non-list branch assigns `datadict[keys] = value` but is missing the
`return`, so execution falls through to `len(keys)` and to the loop over
`keys[:-1]`, which for a string key iterates its characters. -/
def set_dict_data_dec (d : Ent PyV) : KeyPath → NTree PyV → Option String × Ent PyV
  | KeyPath.single s, v =>
      let d1 := alistSet d s v
      if s.length = 0 then (some "ValueError", d1)
      else setWalk d1 (s.toList.map (fun c => c.toString)) v
  | KeyPath.klist [], _ => (some "ValueError", d)
  | KeyPath.klist (k :: rest), v => setWalk d (k :: rest) v

/-- The walk of `get_dict_data` over a key list: `default` (here
`Option.none`) as soon as a segment is missing or a non-dict is entered. -/
def getWalk {α : Type} : NTree α → List String → Option (NTree α)
  | v, [] => some v
  | NTree.leaf _, _ :: _ => Option.none
  | NTree.node d, k :: rest =>
      match alistGet d k with
      | Option.none => Option.none
      | some w => getWalk w rest

/-- `get_dict_data` from `src/utils/nested_dicts.py`. -/
def get_dict_data {α : Type} (d : Ent α) (ks : KeyPath) (default : NTree α) : NTree α :=
  match ks with
  | KeyPath.single k => (alistGet d k).getD default
  | KeyPath.klist [] => default
  | KeyPath.klist (k :: rest) => (getWalk (NTree.node d) (k :: rest)).getD default

/-- The walk of `delete_dict_data` (`src/utils/nested_dicts.py` lines
72-96) on a non-empty key list: locate the parent of the leaf through
dict levels only, pop the leaf, then prune every ancestor dict on the
path that the removal left empty (the upward loop with `break`). -/
def delWalk {α : Type} : Ent α → List String → Bool × Ent α
  | d, [] => (false, d)
  | d, [k] => if (alistGet d k).isSome then (true, alistPop d k) else (false, d)
  | d, k :: k2 :: rest =>
      match alistGet d k with
      | some (NTree.node sub) =>
          if (delWalk sub (k2 :: rest)).1 then
            if (delWalk sub (k2 :: rest)).2.isEmpty then (true, alistPop d k)
            else (true, alistSet d k (NTree.node (delWalk sub (k2 :: rest)).2))
          else (false, d)
      | _ => (false, d)

/-- `datadict.pop(keys, None) is not None`: a popped value of Python
`None` makes the non-list branch of `delete_dict_data` report `False`. -/
def isNotNone : NTree PyV → Bool
  | NTree.leaf PyV.vnone => false
  | _ => true

/-- `delete_dict_data` from `src/utils/nested_dicts.py`. -/
def delete_dict_data (d : Ent PyV) : KeyPath → Bool × Ent PyV
  | KeyPath.single k =>
      match alistGet d k with
      | some v => (isNotNone v, alistPop d k)
      | Option.none => (false, d)
  | KeyPath.klist [] => (false, d)
  | KeyPath.klist (k :: rest) => delWalk d (k :: rest)

/-- The walk of `ProcessingContext.delete_shared`
(`src/decorators/processor.py` lines 137-150) on a non-empty key list:
locate the parent along dict levels, pop the leaf, and return — no
pruning of emptied intermediates and no report of what happened. -/
def delSharedWalk {α : Type} : Ent α → List String → Ent α
  | d, [] => d
  | d, [k] => alistPop d k
  | d, k :: k2 :: rest =>
      match alistGet d k with
      | some (NTree.node sub) => alistSet d k (NTree.node (delSharedWalk sub (k2 :: rest)))
      | _ => d

/-- `ProcessingContext.delete_shared` acting on the shared store. -/
def delete_shared {α : Type} (d : Ent α) : KeyPath → Ent α
  | KeyPath.single k => alistPop d k
  | KeyPath.klist [] => d
  | KeyPath.klist (k :: rest) => delSharedWalk d (k :: rest)

/-- The existence condition that `delete_dict_data` requires to remove
anything from a non-empty key list: the walk reaches the last key through
dict levels and the last key is present in its parent. -/
def pathOk {α : Type} : Ent α → List String → Bool
  | _, [] => false
  | d, [k] => (alistGet d k).isSome
  | d, k :: k2 :: rest =>
      match alistGet d k with
      | some (NTree.node sub) => pathOk sub (k2 :: rest)
      | _ => false

/-! ## The engine (`src/core/engine.py`) -/

/-- A processor config (`rule.get("config", {})`), passed as keyword
arguments; modelled as the dict's entry list. -/
abbrev Config := List (String × PyV)

/-- One rule body of the configuration (a non-reserved entry).  The three
name lists are optional because `_get_processors_for_path` tests key
membership (`"processors" in rule`) before reading them. -/
structure Rule where
  priority : Int
  config : Config
  processors : Option (List String)
  pre_processors : Option (List String)
  post_processors : Option (List String)

/-- The engine configuration.  `rules` holds the pattern-keyed entries in
declaration order (an entry whose body is not a dict is kept as `none`,
matching the `isinstance(rule, dict)` skip); the remaining fields model
the reserved keys `pre_process`/`config_pre`/`post_process`/`config_post`
and the builtin-recorder toggle, where `builtin_record`/`builtin_persist`
are the results of `br.get('record', 'record_to_shared')` and
`br.get('persist', 'persist_history_sqlite')` with a falsy name mapped to
`none`. -/
structure EngineConfig where
  rules : List (String × Option Rule)
  pre_process : Option String
  config_pre : Config
  post_process : Option String
  config_post : Config
  enable_builtin_recorders : Bool
  builtin_record : Option String
  builtin_persist : Option String

/-- The view of the `ProcessingContext` that processors read and write:
the `data` and `shared` stores and the flat `results` list.  The
`metadata` audit store is written by the engine (the repository's
processors record through `add_result`/`data`/`shared`). -/
structure PCtx where
  data : Ent PyV
  shared : Ent PyV
  results : List PyV

/-- A registered inline processor (an entry of `PROCESSORS`): invoked
with `(path, context, **config)`; it returns the captured exception (when
it raised) together with the context as mutated so far. -/
abbrev Processor := List String → Config → PCtx → Option String × PCtx

/-- A registered global hook (an entry of `PRE_PROCESSORS` or
`POST_PROCESSORS`): invoked with `(context, **config)`. -/
abbrev GProc := Config → PCtx → Option String × PCtx

/-- One `metadata` audit record (`metadata_info`): six parallel ordered
fields `[processor_names, configs, outcomes, sequence_number, warnings,
errors]`, per the column names declared in `ProcessingContext`. -/
structure ExecRecord where
  names : List String
  configs : List Config
  outcomes : List String
  seq : Option Int
  warnings : List String
  errors : List String
deriving DecidableEq

/-- The record `[[], [], [], None, [], []]` that
`_execute_processor_list_with_progress` installs on entry. -/
def emptyRecord : ExecRecord := ⟨[], [], [], Option.none, [], []⟩

/-- The whole `ProcessingContext`. -/
structure Ctx where
  pctx : PCtx
  metadata : Ent ExecRecord

/-- Name-to-entry lookup in a registry dict. -/
def lookupName {β : Type} : List (String × β) → String → Option β
  | [], _ => Option.none
  | (k, v) :: rest, key => if k = key then some v else lookupName rest key

/-- `name in registry` membership. -/
def hasName {β : Type} (l : List (String × β)) (n : String) : Bool :=
  (lookupName l n).isSome

/-- The engine together with its collaborators: configuration, the three
registries it was given, the glob matcher (`wcmatch.glob.globmatch` with
`GLOBSTAR`, kept abstract), and the cancellation predicate sampled at the
n-th call of `_is_cancelled`. -/
structure Env where
  cfg : EngineConfig
  preReg : List (String × GProc)
  procs : List (String × Processor)
  postReg : List (String × GProc)
  globm : String → String → Bool
  cancel : Nat → Bool

/-- The mutable run state: the context, `step_counter[0]`, and how many
times `_is_cancelled` has been polled. -/
structure EngSt where
  ctx : Ctx
  step : Nat
  polls : Nat

/-- Observable events of a run, in order: each `_is_cancelled` poll with
its result, each per-entry progress report (`attempt`, one per bucket
entry, also for unregistered names), each actual processor call
(`invoke`), and the global-hook counterparts. -/
inductive Ev where
  | poll (res : Bool)
  | attempt (phase : String) (name : String) (rel : List String)
  | invoke (phase : String) (name : String) (rel : List String)
  | gattempt (name : String)
  | ginvoke (name : String)
deriving DecidableEq

/-- One `_is_cancelled()` call. -/
def pollSt (env : Env) (st : EngSt) : Bool × EngSt :=
  (env.cancel st.polls, { st with polls := st.polls + 1 })

/-- `'/'.join(parts)`. -/
def joinSlash : List String → String
  | [] => ""
  | [s] => s
  | s :: s2 :: rest => s ++ "/" ++ joinSlash (s2 :: rest)

/-- `path.relative_to(root).as_posix()`. -/
def posixOf (rel : List String) : String :=
  if rel.isEmpty then "." else joinSlash rel

/-- `pattern.endswith('/')`. -/
def endsWithSlash (p : String) : Bool :=
  match p.data.getLast? with
  | some c => c = '/'
  | Option.none => false

/-- `pattern.rstrip('/')`. -/
def stripSlashes (p : String) : String :=
  String.mk ((p.data.reverse.dropWhile (fun c => c = '/')).reverse)

/-- `BatchProcessor._match_rule` for a node inside the root (the
traversal only visits such nodes, so `relative_to` cannot raise): the
literal pattern `"."` matches the root only; a pattern ending in `/`
matches directories only, compared with its trailing slashes stripped;
anything else is a plain glob match on the posix relative path. -/
def matchRule (globm : String → String → Bool) (rel : List String)
    (pattern : String) (isDir : Bool) : Bool :=
  if pattern = "." then rel.isEmpty
  else if endsWithSlash pattern then
    isDir && globm (posixOf rel) (stripSlashes pattern)
  else globm (posixOf rel) pattern

/-- The reserved top-level keys skipped by the rule loop. -/
def reservedKey (p : String) : Bool :=
  p = "pre_process" || p = "post_process" || p = "config_pre" || p = "config_post"

/-- A candidate bucket entry before sorting: `(name, config, priority)`. -/
structure Cand where
  name : String
  config : Config
  priority : Int
deriving DecidableEq

/-- `add_to_list`: one matching rule's contribution to one phase. -/
def ruleContrib (rule : Rule) (sel : Rule → Option (List String)) : List Cand :=
  match sel rule with
  | Option.none => []
  | some procs => procs.map (fun p => ⟨p, rule.config, rule.priority⟩)

/-- The candidate collection loop of `_get_processors_for_path` for one
phase: iterate the configuration entries in declaration order, skip the
reserved keys and non-dict bodies, and gather the contributions of every
matching rule. -/
def collectCands (rules : List (String × Option Rule)) (globm : String → String → Bool)
    (rel : List String) (isDir : Bool) (sel : Rule → Option (List String)) : List Cand :=
  rules.flatMap (fun pr =>
    if reservedKey pr.1 then []
    else
      match pr.2 with
      | Option.none => []
      | some rule => if matchRule globm rel pr.1 isDir then ruleContrib rule sel else [])

/-- Insertion step of a stable descending sort: the new element goes
after every element of priority at least its own, as Python's stable
`sorted(..., key=lambda x: -x[2])` would place it. -/
def insertDesc (c : Cand) : List Cand → List Cand
  | [] => [c]
  | d :: rest => if c.priority ≤ d.priority then d :: insertDesc c rest else c :: d :: rest

/-- Stable sort by descending priority (`sorted` is stable, so equal
priorities keep declaration order). -/
def sortDesc (l : List Cand) : List Cand :=
  l.foldl (fun acc c => insertDesc c acc) []

/-- The three resolved phase buckets for one node (`inl` is the "inline"
phase: the rule key `processors`). -/
structure Buckets where
  pre : List (String × Config)
  inl : List (String × Config)
  post : List (String × Config)

/-- Builtin-recorder injection for one bucket: append `(name, {})` when
the name is registered in `PROCESSORS` and not already in the bucket. -/
def injectOne {β : Type} (procs : List (String × β)) (nameO : Option String)
    (bucket : List (String × Config)) : List (String × Config) :=
  match nameO with
  | Option.none => bucket
  | some n =>
      if hasName procs n && !((bucket.map Prod.fst).contains n)
      then bucket ++ [(n, [])] else bucket

/-- `BatchProcessor._get_processors_for_path`: collect each phase's
candidates from all matching non-reserved rules, sort each bucket by
descending priority (stable, no deduplication), drop the priorities, and
optionally append the builtin recorders. -/
def getProcessorsForPath (env : Env) (rel : List String) (isDir : Bool) : Buckets :=
  let mk := fun sel =>
    (sortDesc (collectCands env.cfg.rules env.globm rel isDir sel)).map
      (fun c => (c.name, c.config))
  let b : Buckets :=
    ⟨mk Rule.pre_processors, mk Rule.processors, mk Rule.post_processors⟩
  if env.cfg.enable_builtin_recorders then
    { b with inl := injectOne env.procs env.cfg.builtin_record b.inl,
             post := injectOne env.procs env.cfg.builtin_persist b.post }
  else b

/-- `parts_key`: all but the last relative-path segment get a trailing
`/`, so that a directory's own record key never collides with the
intermediate dict holding its children's records. -/
def partsKeyAux : List String → List String
  | [] => []
  | [p] => [p]
  | p :: q :: rest => (p ++ "/") :: partsKeyAux (q :: rest)

/-- `parts_key` for a node: the root maps to `["."]`. -/
def partsKey (rel : List String) : List String :=
  partsKeyAux (if rel.isEmpty then ["."] else rel)

/-- `context.set_metadata(parts_key, record)`.  The key scheme of
`partsKey` keeps record leaves and intermediate dicts on distinct keys,
so the `TypeError` branch of the nested set is unreachable here. -/
def setMeta (m : Ent ExecRecord) (key : List String) (r : ExecRecord) : Ent ExecRecord :=
  (setWalk m key (NTree.leaf r)).2

/-- `_execute_processor_list_with_progress`, loop part.  For each entry
in bucket order: poll cancellation (`break` when it reports true), bump
`step_counter[0]` and report progress, append the name and config to the
node's record, then either call the processor from `self._processors`
(outcome `succeed`, or `failed` plus the captured message on a raise) or
mark the unregistered name `failed` with a `未注册处理器` note; the record
`md` is the aliased `metadata_info` list, written through to the
metadata store as it grows. -/
def execLoop (env : Env) (rel : List String) (phase : String) (key : List String) :
    List (String × Config) → ExecRecord → EngSt → EngSt × List Ev
  | [], _, st => (st, [])
  | (name, config) :: rest, md, st =>
      let c := pollSt env st
      if c.1 then (c.2, [Ev.poll true])
      else
        let st2 := { c.2 with step := c.2.step + 1 }
        let md1 := { md with names := md.names ++ [name], configs := md.configs ++ [config] }
        match lookupName env.procs name with
        | some p =>
            let r := p rel config st2.ctx.pctx
            let md2 :=
              match r.1 with
              | Option.none => { md1 with outcomes := md1.outcomes ++ ["succeed"] }
              | some e =>
                  { md1 with outcomes := md1.outcomes ++ ["failed"],
                             warnings := md1.warnings ++ [name ++ ": " ++ e] }
            let st3 : EngSt :=
              { st2 with ctx := ⟨r.2, setMeta st2.ctx.metadata key md2⟩ }
            let k := execLoop env rel phase key rest md2 st3
            (k.1, Ev.poll false :: Ev.attempt phase name rel :: Ev.invoke phase name rel :: k.2)
        | Option.none =>
            let md2 := { md1 with outcomes := md1.outcomes ++ ["failed"],
                                  warnings := md1.warnings ++ [name ++ ": 未注册处理器"] }
            let st3 : EngSt :=
              { st2 with ctx := ⟨st2.ctx.pctx, setMeta st2.ctx.metadata key md2⟩ }
            let k := execLoop env rel phase key rest md2 st3
            (k.1, Ev.poll false :: Ev.attempt phase name rel :: k.2)

/-- `_execute_processor_list_with_progress`: install the fresh record
`[[], [], [], None, [], []]` at the node's `parts_key`, then run the
bucket loop. -/
def execList (env : Env) (procs : List (String × Config)) (rel : List String)
    (phase : String) (st : EngSt) : EngSt × List Ev :=
  let key := partsKey rel
  let st1 : EngSt := { st with ctx := ⟨st.ctx.pctx, setMeta st.ctx.metadata key emptyRecord⟩ }
  execLoop env rel phase key procs emptyRecord st1

/-- The outcome and warning columns a cancellation-free bucket execution
writes, entry by entry in bucket order: an unregistered name yields
`failed` plus the `未注册处理器` note; a registered processor is invoked
on the current shared context — `succeed` on normal return, `failed`
plus the captured message on a raise — and the context it returns is
threaded to the next entry. -/
def bucketCols (env : Env) (rel : List String) :
    List (String × Config) → PCtx → List String × List String
  | [], _ => ([], [])
  | (name, config) :: rest, s =>
      match lookupName env.procs name with
      | some p =>
          match (p rel config s).1 with
          | Option.none =>
              ("succeed" :: (bucketCols env rel rest (p rel config s).2).1,
               (bucketCols env rel rest (p rel config s).2).2)
          | some e =>
              ("failed" :: (bucketCols env rel rest (p rel config s).2).1,
               (name ++ ": " ++ e) :: (bucketCols env rel rest (p rel config s).2).2)
      | Option.none =>
          ("failed" :: (bucketCols env rel rest s).1,
           (name ++ ": 未注册处理器") :: (bucketCols env rel rest s).2)

/-- A node of the processed tree.  `readable = false` on a directory
models `iterdir()` raising `PermissionError`/`OSError`, in which case the
engine processes the directory itself but skips its children. -/
inductive FsTree where
  | file (name : String)
  | dir (name : String) (readable : Bool) (children : List FsTree)

/-- The node's own name (last path segment). -/
def FsTree.name : FsTree → String
  | FsTree.file n => n
  | FsTree.dir n _ _ => n

/-- `path.is_dir()`. -/
def FsTree.isDir : FsTree → Bool
  | FsTree.file _ => false
  | FsTree.dir _ _ _ => true

/-- Insertion step of `sorted(p.iterdir())` restricted to one directory:
lexicographic by child name. -/
def insertKid (t : FsTree) : List FsTree → List FsTree
  | [] => [t]
  | u :: rest => if t.name ≤ u.name then t :: u :: rest else u :: insertKid t rest

/-- `sorted(p.iterdir())`: children in lexicographic name order. -/
def sortKids : List FsTree → List FsTree
  | [] => []
  | t :: rest => insertKid t (sortKids rest)

/-- Size bookkeeping for termination: insertion preserves total size. -/
def sizeOf_insertKid (t : FsTree) (l : List FsTree) :
    sizeOf (insertKid t l) = 1 + sizeOf t + sizeOf l := by
  induction l with
  | nil => simp [insertKid]
  | cons u rest ih =>
      simp only [insertKid]
      split
      · simp [List.cons.sizeOf_spec]
      · simp [List.cons.sizeOf_spec, ih]; omega

/-- Size bookkeeping for termination: sorting preserves total size. -/
def sizeOf_sortKids (l : List FsTree) : sizeOf (sortKids l) = sizeOf l := by
  induction l with
  | nil => rfl
  | cons t rest ih =>
      simp only [sortKids, sizeOf_insertKid, ih, List.cons.sizeOf_spec]

/-- The guarded bucket execution of `_process_path_recursive`: the
executor is called only when the bucket is non-empty (an empty bucket
leaves the state — in particular the node's metadata — untouched). -/
def execPhase (env : Env) (procs : List (String × Config)) (rel : List String)
    (ph : String) (st : EngSt) : EngSt × List Ev :=
  if procs.isEmpty then (st, []) else execList env procs rel ph st

mutual

/-- `BatchProcessor._process_path_recursive`: resolve the node's buckets,
execute `pre + inline` on entry (when non-empty), then visit the sorted
children of a readable directory — polling cancellation before each
child, and returning from the whole visit (skipping the post bucket) the
moment it reports true — and finally execute the `post` bucket on exit
(when non-empty). -/
def processRec (env : Env) (t : FsTree) (rel : List String) (st : EngSt) :
    EngSt × List Ev :=
  match t with
  | FsTree.file _ =>
      ((execPhase env (getProcessorsForPath env rel false).post rel "post"
          (execPhase env ((getProcessorsForPath env rel false).pre
            ++ (getProcessorsForPath env rel false).inl) rel "pre" st).1).1,
       (execPhase env ((getProcessorsForPath env rel false).pre
          ++ (getProcessorsForPath env rel false).inl) rel "pre" st).2
        ++ (execPhase env (getProcessorsForPath env rel false).post rel "post"
            (execPhase env ((getProcessorsForPath env rel false).pre
              ++ (getProcessorsForPath env rel false).inl) rel "pre" st).1).2)
  | FsTree.dir _ readable cs =>
      (if readable then
        childLoop env (sortKids cs) rel
          (execPhase env ((getProcessorsForPath env rel true).pre
            ++ (getProcessorsForPath env rel true).inl) rel "pre" st).1
       else
        ((execPhase env ((getProcessorsForPath env rel true).pre
            ++ (getProcessorsForPath env rel true).inl) rel "pre" st).1,
         ([] : List Ev), false))
      |> fun k =>
        if k.2.2 then
          (k.1,
           (execPhase env ((getProcessorsForPath env rel true).pre
              ++ (getProcessorsForPath env rel true).inl) rel "pre" st).2 ++ k.2.1)
        else
          ((execPhase env (getProcessorsForPath env rel true).post rel "post" k.1).1,
           (execPhase env ((getProcessorsForPath env rel true).pre
              ++ (getProcessorsForPath env rel true).inl) rel "pre" st).2
             ++ k.2.1
             ++ (execPhase env (getProcessorsForPath env rel true).post rel "post" k.1).2)
termination_by sizeOf t
decreasing_by
  simp only [sizeOf_sortKids, FsTree.dir.sizeOf_spec]
  omega

/-- The `for child in children` loop of `_process_path_recursive`; the
boolean result records whether a cancellation poll cut the loop short
(the early `return` that also skips the parent's post bucket). -/
def childLoop (env : Env) (kids : List FsTree) (rel : List String) (st : EngSt) :
    EngSt × List Ev × Bool :=
  match kids with
  | [] => (st, [], false)
  | c :: rest =>
      let b := pollSt env st
      if b.1 then (b.2, [Ev.poll true], true)
      else
        let s := processRec env c (rel ++ [c.name]) b.2
        let s2 := childLoop env rest rel s.1
        (s2.1, Ev.poll false :: (s.2 ++ s2.2.1), s2.2.2)
termination_by sizeOf kids

end

mutual

/-- `BatchProcessor._count_total_processor_calls`, recursive walk: the
identical traversal and resolution as the live pass, summing the three
bucket sizes over every node and never invoking anything. -/
def countTree (env : Env) (t : FsTree) (rel : List String) : Nat :=
  let b := getProcessorsForPath env rel t.isDir
  b.pre.length + b.inl.length + b.post.length +
    match t with
    | FsTree.file _ => 0
    | FsTree.dir _ readable cs =>
        if readable then countKids env (sortKids cs) rel else 0
termination_by sizeOf t
decreasing_by
  simp only [sizeOf_sortKids, FsTree.dir.sizeOf_spec]
  omega

/-- The child loop of the dry counting walk. -/
def countKids (env : Env) (kids : List FsTree) (rel : List String) : Nat :=
  match kids with
  | [] => 0
  | c :: rest => countTree env c (rel ++ [c.name]) + countKids env rest rel
termination_by sizeOf kids

end

/-- The `total_steps` computed by `run` before the live pass: the dry
count plus one for a configured global pre hook and one for a configured
global post hook. -/
def totalSteps (env : Env) (t : FsTree) : Nat :=
  (if env.cfg.pre_process.isSome then 1 else 0) + countTree env t []
    + (if env.cfg.post_process.isSome then 1 else 0)

/-- The global pre-hook section of `run`: when `pre_process` is
configured, bump the step and report progress, poll cancellation (the
boolean result marks the early `return context`), then call the hook
from `PRE_PROCESSORS` when registered, swallowing any exception. -/
def globalPre (env : Env) (st : EngSt) : EngSt × List Ev × Bool :=
  match env.cfg.pre_process with
  | Option.none => (st, [], false)
  | some name =>
      let st1 : EngSt := { st with step := st.step + 1 }
      let c := pollSt env st1
      if c.1 then (c.2, [Ev.gattempt name, Ev.poll true], true)
      else
        match lookupName env.preReg name with
        | some g =>
            let r := g env.cfg.config_pre c.2.ctx.pctx
            ({ c.2 with ctx := ⟨r.2, c.2.ctx.metadata⟩ },
             [Ev.gattempt name, Ev.poll false, Ev.ginvoke name], false)
        | Option.none => (c.2, [Ev.gattempt name, Ev.poll false], false)

/-- The global post-hook section of `run`: `_is_cancelled` is polled
first (the `and` short-circuits after it); when not cancelled and
`post_process` is configured, bump the step, report progress, and call
the hook from `POST_PROCESSORS` when registered, swallowing any
exception. -/
def globalPost (env : Env) (st : EngSt) : EngSt × List Ev :=
  let c := pollSt env st
  if c.1 then (c.2, [Ev.poll true])
  else
    match env.cfg.post_process with
    | Option.none => (c.2, [Ev.poll false])
    | some name =>
        let st2 : EngSt := { c.2 with step := c.2.step + 1 }
        match lookupName env.postReg name with
        | some g =>
            let r := g env.cfg.config_post st2.ctx.pctx
            ({ st2 with ctx := ⟨r.2, st2.ctx.metadata⟩ },
             [Ev.poll false, Ev.gattempt name, Ev.ginvoke name])
        | Option.none => (st2, [Ev.poll false, Ev.gattempt name])

/-- `BatchProcessor.run` on an existing root (a missing root raises
before any traversal and is out of scope here): global pre hook, the
recursive walk, global post hook; returns the final context, the final
value of the step counter, and the event trace. -/
def run (env : Env) (t : FsTree) (ctx0 : Ctx) : Ctx × Nat × List Ev :=
  let st0 : EngSt := ⟨ctx0, 0, 0⟩
  let g := globalPre env st0
  if g.2.2 then (g.1.ctx, g.1.step, g.2.1)
  else
    let s := processRec env t [] g.1
    let p := globalPost env s.1
    (p.1.ctx, p.1.step, g.2.1 ++ s.2 ++ p.2)

/-- Invocation-attempt events: one per bucket entry reached by the live
loop (registered or not) and one per configured global hook reached. -/
def isAttempt : Ev → Bool
  | Ev.attempt _ _ _ => true
  | Ev.gattempt _ => true
  | _ => false

/-- Actual processor invocations. -/
def isInvoke : Ev → Bool
  | Ev.invoke _ _ _ => true
  | Ev.ginvoke _ => true
  | _ => false

/-- Number of invocation attempts in a trace. -/
def attemptCount (evs : List Ev) : Nat := (evs.filter isAttempt).length

/-- Derived: the events a cancellation-free bucket execution emits, one
group per entry — a false poll, the progress report, and the invocation
when (and only when) the name is registered in `PROCESSORS`. -/
def execEvs (env : Env) (procs : List (String × Config)) (rel : List String)
    (ph : String) : List Ev :=
  procs.flatMap (fun pc =>
    Ev.poll false :: Ev.attempt ph pc.1 rel ::
      (if hasName env.procs pc.1 then [Ev.invoke ph pc.1 rel] else []))

mutual

/-- Derived: the expected event trace of a cancellation-free visit of one
node — the `pre ++ inline` bucket on entry, then the sorted children of a
readable directory (each behind one false poll), then the `post` bucket
on exit, after every descendant. -/
def specTrace (env : Env) (t : FsTree) (rel : List String) : List Ev :=
  execEvs env ((getProcessorsForPath env rel t.isDir).pre
      ++ (getProcessorsForPath env rel t.isDir).inl) rel "pre"
    ++ (match t with
        | FsTree.file _ => []
        | FsTree.dir _ readable cs =>
            if readable then specKids env (sortKids cs) rel else [])
    ++ execEvs env (getProcessorsForPath env rel t.isDir).post rel "post"
termination_by sizeOf t
decreasing_by
  simp only [sizeOf_sortKids, FsTree.dir.sizeOf_spec]
  omega

/-- Derived: the expected cancellation-free trace of a child list. -/
def specKids (env : Env) (kids : List FsTree) (rel : List String) : List Ev :=
  match kids with
  | [] => []
  | c :: rest =>
      Ev.poll false :: (specTrace env c (rel ++ [c.name]) ++ specKids env rest rel)
termination_by sizeOf kids

end

/-- Does a trace contain a poll that reported cancellation? -/
def hasStop : List Ev → Bool
  | [] => false
  | Ev.poll true :: _ => true
  | _ :: rest => hasStop rest

/-- Is a trace free of processor invocations? -/
def invFree : List Ev → Bool
  | [] => true
  | e :: rest => !isInvoke e && invFree rest

/-- No processor invocation occurs after any poll that reported
cancellation. -/
def goodTrace : List Ev → Bool
  | [] => true
  | Ev.poll true :: rest => invFree rest
  | _ :: rest => goodTrace rest

/-- The cancellation source is monotone: once it reports true it keeps
reporting true (an interruption request is never withdrawn). -/
def Mono (cancel : Nat → Bool) : Prop :=
  ∀ m n, m ≤ n → cancel m = true → cancel n = true

/-- Bookkeeping for the cancellation proof, relating a computation step
to its trace: polls only move forward; a reported stop still holds at the
final poll counter; a stop already reported at entry means nothing was
invoked; and no invocation follows a reported stop. -/
def StepOK (env : Env) (pin pout : Nat) (evs : List Ev) : Prop :=
  pin ≤ pout
    ∧ (hasStop evs = true → env.cancel pout = true)
    ∧ (env.cancel pin = true → invFree evs = true)
    ∧ goodTrace evs = true

/-- Every processor and hook of the environment only ever appends to the
flat `results` store (as `context.add_result` does). -/
def ResultsMono (env : Env) : Prop :=
  (∀ nm p, lookupName env.procs nm = some p →
      ∀ rel cfg s, ∃ t, (p rel cfg s).2.results = s.results ++ t)
    ∧ (∀ nm g, lookupName env.preReg nm = some g →
        ∀ cfg s, ∃ t, (g cfg s).2.results = s.results ++ t)
    ∧ (∀ nm g, lookupName env.postReg nm = some g →
        ∀ cfg s, ∃ t, (g cfg s).2.results = s.results ++ t)

/-! ## Concrete scenarios used by counterexamples and witnesses -/

/-- A processor that returns normally and leaves the context as is. -/
def okP : Processor := fun _ _ p => (Option.none, p)

/-- A global hook that returns normally and leaves the context as is. -/
def okG : GProc := fun _ p => (Option.none, p)

/-- An empty starting context. -/
def ctxEmpty : Ctx := ⟨⟨[], [], []⟩, []⟩

/-- Scenario for mid-run cancellation: the root rule gives the root node
the pre bucket `[p, q]` and the post bucket `[r]`; all three are
registered; the cancellation predicate flips to true from the second
poll on (and stays true: it is monotone). -/
def env4 : Env :=
  ⟨⟨[(".", some ⟨0, [], Option.none, some ["p", "q"], some ["r"]⟩)],
    Option.none, [], Option.none, [], false, Option.none, Option.none⟩,
   [], [("p", okP), ("q", okP), ("r", okP)], [],
   fun _ _ => false, fun n => decide (1 ≤ n)⟩

/-- Scenario for the sequence-number field: one rule matching `a.txt`
with the single registered inline processor `p1`; no cancellation. -/
def env6 : Env :=
  ⟨⟨[("*.txt", some ⟨0, [], some ["p1"], Option.none, Option.none⟩)],
    Option.none, [], Option.none, [], false, Option.none, Option.none⟩,
   [], [("p1", okP)], [],
   fun s p => decide (s = "a.txt" ∧ p = "*.txt"), fun _ => false⟩

/-- The tree for `env6`: a readable root directory holding `a.txt`. -/
def tree6 : FsTree := FsTree.dir "root" true [FsTree.file "a.txt"]

/-- Scenario for the audit-trail overwrite: the root rule puts the
unregistered name `bad` in the pre bucket and the registered `r` in the
post bucket; no cancellation. -/
def env7 : Env :=
  ⟨⟨[(".", some ⟨0, [], Option.none, some ["bad"], some ["r"]⟩)],
    Option.none, [], Option.none, [], false, Option.none, Option.none⟩,
   [], [("r", okP)], [],
   fun _ _ => false, fun _ => false⟩

/-- A processor that raises with the message `boom`, leaving the context
as is. -/
def failP : Processor := fun _ _ p => (some "boom", p)

/-- Scenario for fault capture inside one bucket: `p1` is registered and
returns normally, `pf` is registered and raises `boom`; no rules and no
cancellation. -/
def env2w : Env :=
  ⟨⟨[], Option.none, [], Option.none, [], false, Option.none, Option.none⟩,
   [], [("p1", okP), ("pf", failP)], [],
   fun _ _ => false, fun _ => false⟩

/-- Scenario for enter/exit symmetry: root directory `D` holds file `F`;
`F` has the inline action `fAct`, `D` the post action `dAct`. -/
def envDF : Env :=
  ⟨⟨[("F", some ⟨0, [], some ["fAct"], Option.none, Option.none⟩),
     (".", some ⟨0, [], Option.none, Option.none, some ["dAct"]⟩)],
    Option.none, [], Option.none, [], false, Option.none, Option.none⟩,
   [], [("fAct", okP), ("dAct", okP)], [],
   fun s p => decide (s = p), fun _ => false⟩

/-- The tree for `envDF`. -/
def treeDF : FsTree := FsTree.dir "D" true [FsTree.file "F"]

/-- Scenario for registry separation: the name `x` is registered only
among the pre-processors; the inline registry is empty; the global
pre hook is configured to `x`. -/
def env10 : Env :=
  ⟨⟨[(".", some ⟨0, [], some ["x"], Option.none, Option.none⟩)],
    some "x", [], Option.none, [], false, Option.none, Option.none⟩,
   [("x", okG)], [], [],
   fun _ _ => false, fun _ => false⟩

/-! ## Association-list and nested-store lemmas -/

theorem alistGet_alistSet_self {α : Type} (d : Ent α) (k : String) (v : NTree α) :
    alistGet (alistSet d k v) k = some v := by
  induction d with
  | nil => simp [alistSet, alistGet]
  | cons e rest ih =>
      by_cases h : e.1 = k
      · simp [alistSet, alistGet, h]
      · simp [alistSet, alistGet, h, ih]

theorem alistGet_alistSet_ne {α : Type} (d : Ent α) (k k' : String) (v : NTree α)
    (h : k ≠ k') : alistGet (alistSet d k v) k' = alistGet d k' := by
  induction d with
  | nil => simp [alistSet, alistGet, h]
  | cons e rest ih =>
      by_cases he : e.1 = k
      · simp [alistSet, alistGet, he, h]
      · simp [alistSet, alistGet, he, ih]

theorem alistSet_alistSet {α : Type} (d : Ent α) (k : String) (v v' : NTree α) :
    alistSet (alistSet d k v) k v' = alistSet d k v' := by
  induction d with
  | nil => simp [alistSet]
  | cons e rest ih =>
      by_cases he : e.1 = k
      · simp [alistSet, he]
      · simp [alistSet, he, ih]

theorem alistGet_none_of_not_contains {α : Type} (d : Ent α) (k : String)
    (h : (keysOf d).contains k = false) : alistGet d k = Option.none := by
  induction d with
  | nil => simp [alistGet]
  | cons e rest ih =>
      by_cases he : e.1 = k
      · exfalso
        subst he
        simp [keysOf, List.contains_cons] at h
      · rw [alistGet, if_neg he]
        apply ih
        simp only [keysOf, List.map_cons, List.contains_cons,
          Bool.or_eq_false_iff] at h
        exact h.2

theorem alistGet_alistPop_self {α : Type} (d : Ent α) (k : String)
    (hwf : wfEnts d = true) : alistGet (alistPop d k) k = Option.none := by
  induction d with
  | nil => simp [alistPop, alistGet]
  | cons e rest ih =>
      rw [wfEnts] at hwf
      simp only [Bool.and_eq_true, Bool.not_eq_true'] at hwf
      by_cases he : e.1 = k
      · subst he
        simp only [alistPop, if_pos rfl]
        exact alistGet_none_of_not_contains rest e.1 hwf.1.1
      · simp [alistPop, alistGet, he, ih hwf.2]

theorem alistGet_alistPop_ne {α : Type} (d : Ent α) (k k' : String)
    (h : k ≠ k') : alistGet (alistPop d k) k' = alistGet d k' := by
  induction d with
  | nil => simp [alistPop]
  | cons e rest ih =>
      by_cases he : e.1 = k
      · subst he
        simp [alistPop, alistGet, h]
      · simp [alistPop, alistGet, he, ih]

theorem wfEnts_of_get {α : Type} (d : Ent α) (k : String) (sub : Ent α)
    (hwf : wfEnts d = true) (hg : alistGet d k = some (NTree.node sub)) :
    wfEnts sub = true := by
  induction d with
  | nil => simp [alistGet] at hg
  | cons e rest ih =>
      rw [wfEnts] at hwf
      simp only [Bool.and_eq_true] at hwf
      by_cases he : e.1 = k
      · rw [alistGet, if_pos he] at hg
        have h2 := hwf.1.2
        rw [Option.some.injEq] at hg
        rw [hg] at h2
        simpa [wfT] using h2
      · rw [alistGet, if_neg he] at hg
        exact ih hwf.2 hg

theorem setWalk_collapse {α : Type} (key : List String) :
    ∀ (m : Ent α) (v v' : NTree α),
      setWalk (setWalk m key v).2 key v' = setWalk m key v' := by
  induction key with
  | nil => intro m v v'; simp [setWalk]
  | cons k tail ih =>
      intro m v v'
      cases tail with
      | nil => simp [setWalk, alistSet_alistSet]
      | cons k2 rest =>
          cases hg : alistGet m k with
          | none =>
              simp only [setWalk, hg, alistGet_alistSet_self, alistSet_alistSet, ih]
          | some w =>
              cases w with
              | node sub =>
                  simp only [setWalk, hg, alistGet_alistSet_self, alistSet_alistSet, ih]
              | leaf a => simp [setWalk, hg]

theorem setMeta_setMeta (m : Ent ExecRecord) (key : List String) (r r' : ExecRecord) :
    setMeta (setMeta m key r) key r' = setMeta m key r' := by
  unfold setMeta
  rw [setWalk_collapse]

/-! ## Lemmas on `delete_dict_data` and the pruning walk -/

theorem delWalk_fst {α : Type} : ∀ (ks : List String) (d : Ent α),
    (delWalk d ks).1 = pathOk d ks := by
  intro ks
  induction ks with
  | nil => intro d; simp [delWalk, pathOk]
  | cons k tail ih =>
      intro d
      cases tail with
      | nil =>
          simp only [delWalk, pathOk]
          split <;> simp_all
      | cons k2 rest =>
          simp only [delWalk, pathOk]
          cases hg : alistGet d k with
          | none => rfl
          | some w =>
              cases w with
              | leaf a => rfl
              | node sub =>
                  dsimp only
                  rw [← ih sub]
                  by_cases hr : (delWalk sub (k2 :: rest)).1 = true
                  · rw [if_pos hr, hr]
                    split <;> rfl
                  · rw [if_neg hr]
                    simp only [Bool.not_eq_true] at hr
                    rw [hr]

theorem delWalk_not_removed {α : Type} : ∀ (ks : List String) (d : Ent α),
    (delWalk d ks).1 = false → (delWalk d ks).2 = d := by
  intro ks
  induction ks with
  | nil => intro d _; rfl
  | cons k tail ih =>
      intro d h
      cases tail with
      | nil =>
          simp only [delWalk] at h ⊢
          by_cases hin : (alistGet d k).isSome = true
          · rw [if_pos hin] at h; simp at h
          · rw [if_neg hin]
      | cons k2 rest =>
          simp only [delWalk] at h ⊢
          cases hg : alistGet d k with
          | none => rfl
          | some w =>
              cases w with
              | leaf a => rfl
              | node sub =>
                  rw [hg] at h
                  dsimp only at h ⊢
                  by_cases hr : (delWalk sub (k2 :: rest)).1 = true
                  · rw [if_pos hr] at h
                    split at h <;> simp at h
                  · rw [if_neg hr]

theorem getWalk_delWalk_self {α : Type} : ∀ (ks : List String) (d : Ent α),
    wfEnts d = true → (delWalk d ks).1 = true →
    getWalk (NTree.node (delWalk d ks).2) ks = Option.none := by
  intro ks
  induction ks with
  | nil => intro d _ h; simp [delWalk] at h
  | cons k tail ih =>
      intro d hwf h
      cases tail with
      | nil =>
          simp only [delWalk] at h ⊢
          by_cases hin : (alistGet d k).isSome = true
          · rw [if_pos hin]
            simp [getWalk, alistGet_alistPop_self d k hwf]
          · rw [if_neg hin] at h
            simp at h
      | cons k2 rest =>
          simp only [delWalk] at h ⊢
          cases hg : alistGet d k with
          | none => rw [hg] at h; simp at h
          | some w =>
              cases w with
              | leaf a => rw [hg] at h; simp at h
              | node sub =>
                  rw [hg] at h
                  dsimp only at h ⊢
                  by_cases hr : (delWalk sub (k2 :: rest)).1 = true
                  · rw [if_pos hr] at h ⊢
                    by_cases he : (delWalk sub (k2 :: rest)).2.isEmpty = true
                    · rw [if_pos he]
                      simp [getWalk, alistGet_alistPop_self d k hwf]
                    · rw [if_neg he]
                      simp only [getWalk, alistGet_alistSet_self]
                      exact ih sub (wfEnts_of_get d k sub hwf hg) hr
                  · rw [if_neg hr] at h
                    simp at h

theorem delWalk_ancestors {α : Type} : ∀ (ks : List String) (d : Ent α),
    wfEnts d = true → (delWalk d ks).1 = true →
    ∀ q t, t ≠ [] → ks = q ++ t → q ≠ [] →
      getWalk (NTree.node (delWalk d ks).2) q = Option.none
        ∨ ∃ e, getWalk (NTree.node (delWalk d ks).2) q = some (NTree.node e) ∧ e ≠ [] := by
  intro ks
  induction ks with
  | nil => intro d _ h; simp [delWalk] at h
  | cons k tail ih =>
      intro d hwf h q t ht hks hq
      cases q with
      | nil => exact absurd rfl hq
      | cons q1 q' =>
          have hk : q1 = k := by
            have := hks
            simp only [List.cons_append, List.cons.injEq] at this
            exact this.1.symm
          subst hk
          have htail : tail = q' ++ t := by
            simpa using hks
          cases tail with
          | nil =>
              exact absurd (List.append_eq_nil.mp htail.symm).2 ht
          | cons k2 rest =>
              simp only [delWalk] at h ⊢
              cases hg : alistGet d q1 with
              | none => rw [hg] at h; simp at h
              | some w =>
                  cases w with
                  | leaf a => rw [hg] at h; simp at h
                  | node sub =>
                      rw [hg] at h
                      dsimp only at h ⊢
                      by_cases hr : (delWalk sub (k2 :: rest)).1 = true
                      · rw [if_pos hr] at h ⊢
                        by_cases he : (delWalk sub (k2 :: rest)).2.isEmpty = true
                        · rw [if_pos he]
                          left
                          cases q' with
                          | nil => simp [getWalk, alistGet_alistPop_self d q1 hwf]
                          | cons a b => simp [getWalk, alistGet_alistPop_self d q1 hwf]
                        · rw [if_neg he]
                          cases q' with
                          | nil =>
                              right
                              refine ⟨(delWalk sub (k2 :: rest)).2, ?_, ?_⟩
                              · simp [getWalk, alistGet_alistSet_self]
                              · simpa [List.isEmpty_iff] using he
                          | cons a b =>
                              have hsub := ih sub (wfEnts_of_get d q1 sub hwf hg) hr
                                (a :: b) t ht (by simpa using htail) (by simp)
                              simpa only [getWalk, alistGet_alistSet_self] using hsub
                      · rw [if_neg hr] at h
                        simp at h

/-- C8 (counterexample): the store-level delete of the context,
`ProcessingContext.delete_shared`, does not prune intermediate mappings
left empty by a removal (and returns nothing): after
`delete(store, ["a","b"])` and `delete(store, ["a","c"])` on
`{"a": {"b": 1, "c": 2}}`, the key `"a"` is still present, bound to an
empty mapping — the claim says it would be removed entirely. -/
theorem claim8_counterexample :
    delete_shared
      (delete_shared
        [("a", NTree.node [("b", NTree.leaf (PyV.vint 1)), ("c", NTree.leaf (PyV.vint 2))])]
        (KeyPath.klist ["a", "b"]))
      (KeyPath.klist ["a", "c"])
      = [("a", NTree.node ([] : List (String × NTree PyV)))] := by
  rfl

/-- C8 (amended): the utility `delete_dict_data` (src/utils/nested_dicts.py)
behaves as the claim describes on key-list paths over a well-formed store:
it reports `true` exactly when the full path exists, removes the leaf,
changes nothing when it reports `false`, and prunes so that afterwards no
proper ancestor along the path is left bound to an empty mapping; the
context's `delete_shared`, by contrast, removes only the leaf without
pruning and returns nothing. -/
theorem claim8_delete_data_prunes (d : Ent PyV) (ks : List String)
    (hk : ks ≠ []) (hwf : wfEnts d = true) :
    ((delete_dict_data d (KeyPath.klist ks)).1 = pathOk d ks)
    ∧ ((delete_dict_data d (KeyPath.klist ks)).1 = true →
        getWalk (NTree.node (delete_dict_data d (KeyPath.klist ks)).2) ks = Option.none)
    ∧ ((delete_dict_data d (KeyPath.klist ks)).1 = false →
        (delete_dict_data d (KeyPath.klist ks)).2 = d)
    ∧ (∀ q t, t ≠ [] → ks = q ++ t → q ≠ [] →
        (delete_dict_data d (KeyPath.klist ks)).1 = true →
        getWalk (NTree.node (delete_dict_data d (KeyPath.klist ks)).2) q = Option.none
          ∨ ∃ e, getWalk (NTree.node (delete_dict_data d (KeyPath.klist ks)).2) q
              = some (NTree.node e) ∧ e ≠ []) := by
  cases ks with
  | nil => exact absurd rfl hk
  | cons k rest =>
      refine ⟨delWalk_fst (k :: rest) d, ?_, ?_, ?_⟩
      · intro h
        exact getWalk_delWalk_self (k :: rest) d hwf h
      · intro h
        exact delWalk_not_removed (k :: rest) d h
      · intro q t ht hks hq h
        exact delWalk_ancestors (k :: rest) d hwf h q t ht hks hq

/-- C8 (witness): `claim8_delete_data_prunes` at the store
`{"a": {"c": 2}}` with path `["a","c"]`, plus the concrete two-step
scenario: deleting `["a","b"]` and then `["a","c"]` from
`{"a": {"b": 1, "c": 2}}` via `delete_dict_data` removes `"a"` entirely. -/
theorem claim8_witness :
    ((delete_dict_data [("a", NTree.node [("c", NTree.leaf (PyV.vint 2))])]
        (KeyPath.klist ["a", "c"])).1
      = pathOk [("a", NTree.node [("c", NTree.leaf (PyV.vint 2))])] ["a", "c"])
    ∧ (delete_dict_data
        [("a", NTree.node [("b", NTree.leaf (PyV.vint 1)), ("c", NTree.leaf (PyV.vint 2))])]
        (KeyPath.klist ["a", "b"])).2
      = [("a", NTree.node [("c", NTree.leaf (PyV.vint 2))])]
    ∧ (delete_dict_data [("a", NTree.node [("c", NTree.leaf (PyV.vint 2))])]
        (KeyPath.klist ["a", "c"])).2 = [] := by
  refine ⟨(claim8_delete_data_prunes
      [("a", NTree.node [("c", NTree.leaf (PyV.vint 2))])] ["a", "c"]
      (by simp) (by rfl)).1, by rfl, by rfl⟩

/-- C9 (code bug): `set_dict_data` in `src/decorators/processor.py` is
missing the `return` after the non-list assignment, so a single string
key falls through to the nested walk over its characters: on the store
`{"a": 5}` with the single key `"ab"`, it performs the leaf write and
then raises `TypeError` (because the character `"a"` names the existing
non-dict value 5) — although a single-key path has no intermediate
segments at all.  The duplicate in `src/utils/nested_dicts.py`, which has
the `return`, stores the value and raises nothing on the same input. -/
theorem claim9_decorators_set_raises :
    set_dict_data_dec [("a", NTree.leaf (PyV.vint 5))] (KeyPath.single "ab")
        (NTree.leaf (PyV.vint 1))
      = (some "TypeError",
         [("a", NTree.leaf (PyV.vint 5)), ("ab", NTree.leaf (PyV.vint 1))])
    ∧ set_dict_data [("a", NTree.leaf (PyV.vint 5))] (KeyPath.single "ab")
        (NTree.leaf (PyV.vint 1))
      = (Option.none,
         [("a", NTree.leaf (PyV.vint 5)), ("ab", NTree.leaf (PyV.vint 1))]) := by
  constructor
  · rfl
  · rfl

/-! ## Stable descending sort lemmas -/

theorem mem_insertDesc (c x : Cand) (l : List Cand) :
    x ∈ insertDesc c l ↔ x = c ∨ x ∈ l := by
  induction l with
  | nil => simp [insertDesc]
  | cons d rest ih =>
      by_cases hc : c.priority ≤ d.priority
      · rw [insertDesc, if_pos hc]
        simp only [List.mem_cons, ih]
        tauto
      · rw [insertDesc, if_neg hc]
        simp

theorem insertDesc_pairwise (c : Cand) (l : List Cand)
    (h : l.Pairwise (fun a b => b.priority ≤ a.priority)) :
    (insertDesc c l).Pairwise (fun a b => b.priority ≤ a.priority) := by
  induction l with
  | nil => simp [insertDesc]
  | cons d rest ih =>
      rw [List.pairwise_cons] at h
      by_cases hc : c.priority ≤ d.priority
      · rw [insertDesc, if_pos hc, List.pairwise_cons]
        refine ⟨?_, ih h.2⟩
        intro x hx
        rcases (mem_insertDesc c x rest).mp hx with hxc | hxr
        · rw [hxc]; exact hc
        · exact h.1 x hxr
      · rw [insertDesc, if_neg hc, List.pairwise_cons]
        push_neg at hc
        refine ⟨?_, List.pairwise_cons.mpr h⟩
        intro x hx
        rcases List.mem_cons.mp hx with hxd | hxr
        · rw [hxd]; exact le_of_lt hc
        · exact le_trans (h.1 x hxr) (le_of_lt hc)

theorem filter_eq_nil_of_lt (p : Int) (m : List Cand)
    (h : ∀ x ∈ m, x.priority < p) :
    m.filter (fun x => x.priority == p) = [] := by
  induction m with
  | nil => rfl
  | cons d rest ih =>
      rw [List.filter_cons]
      have hd : (d.priority == p) = false := by
        simp only [beq_eq_false_iff_ne]
        exact ne_of_lt (h d (List.mem_cons_self d rest))
      rw [hd]
      simp only [Bool.false_eq_true, if_false]
      exact ih (fun x hx => h x (List.mem_cons_of_mem d hx))

theorem insertDesc_filter (c : Cand) (l : List Cand) (p : Int)
    (h : l.Pairwise (fun a b => b.priority ≤ a.priority)) :
    (insertDesc c l).filter (fun x => x.priority == p)
      = if c.priority = p
        then l.filter (fun x => x.priority == p) ++ [c]
        else l.filter (fun x => x.priority == p) := by
  induction l with
  | nil =>
      by_cases hcp : c.priority = p <;> simp [insertDesc, hcp]
  | cons d rest ih =>
      rw [List.pairwise_cons] at h
      by_cases hc : c.priority ≤ d.priority
      · rw [insertDesc, if_pos hc, List.filter_cons, List.filter_cons,
          ih h.2]
        by_cases hdp : (d.priority == p) = true
        · rw [hdp]
          by_cases hcp : c.priority = p <;> simp [hcp]
        · simp only [Bool.not_eq_true] at hdp
          rw [hdp]
          by_cases hcp : c.priority = p <;> simp [hcp]
      · rw [insertDesc, if_neg hc]
        push_neg at hc
        by_cases hcp : c.priority = p
        · have hnil : (d :: rest).filter (fun x => x.priority == p) = [] := by
            apply filter_eq_nil_of_lt
            intro x hx
            rcases List.mem_cons.mp hx with hxd | hxr
            · rw [hxd, ← hcp]; exact hc
            · exact lt_of_le_of_lt (h.1 x hxr) (by rw [← hcp]; exact hc)
          rw [if_pos hcp, hnil, List.filter_cons]
          simp [hcp, hnil]
        · rw [if_neg hcp, List.filter_cons]
          have : (c.priority == p) = false := by
            simp only [beq_eq_false_iff_ne]; exact hcp
          rw [this]
          simp

theorem foldl_insertDesc_pairwise (l : List Cand) :
    ∀ acc, acc.Pairwise (fun a b => b.priority ≤ a.priority) →
      (l.foldl (fun a c => insertDesc c a) acc).Pairwise
        (fun a b => b.priority ≤ a.priority) := by
  induction l with
  | nil => intro acc h; simpa using h
  | cons c rest ih =>
      intro acc h
      rw [List.foldl_cons]
      exact ih (insertDesc c acc) (insertDesc_pairwise c acc h)

theorem sortDesc_pairwise (l : List Cand) :
    (sortDesc l).Pairwise (fun a b => b.priority ≤ a.priority) :=
  foldl_insertDesc_pairwise l [] (List.Pairwise.nil)

theorem foldl_insertDesc_filter (l : List Cand) (p : Int) :
    ∀ acc, acc.Pairwise (fun a b => b.priority ≤ a.priority) →
      (l.foldl (fun a c => insertDesc c a) acc).filter (fun x => x.priority == p)
        = acc.filter (fun x => x.priority == p) ++ l.filter (fun x => x.priority == p) := by
  induction l with
  | nil => intro acc _; simp
  | cons c rest ih =>
      intro acc h
      rw [List.foldl_cons, ih (insertDesc c acc) (insertDesc_pairwise c acc h),
        insertDesc_filter c acc p h, List.filter_cons]
      by_cases hcp : c.priority = p
      · rw [if_pos hcp]
        have : (c.priority == p) = true := by simpa using hcp
        rw [this]
        simp [List.append_assoc]
      · rw [if_neg hcp]
        have : (c.priority == p) = false := by
          simp only [beq_eq_false_iff_ne]; exact hcp
        rw [this]
        simp

theorem sortDesc_filter (l : List Cand) (p : Int) :
    (sortDesc l).filter (fun x => x.priority == p)
      = l.filter (fun x => x.priority == p) := by
  have h := foldl_insertDesc_filter l p [] (List.Pairwise.nil)
  simpa [sortDesc] using h

theorem insertDesc_length (c : Cand) (l : List Cand) :
    (insertDesc c l).length = l.length + 1 := by
  induction l with
  | nil => rfl
  | cons d rest ih =>
      rw [insertDesc]
      split
      · simp [ih]
      · simp

theorem sortDesc_length (l : List Cand) : (sortDesc l).length = l.length := by
  have h : ∀ acc, (l.foldl (fun a c => insertDesc c a) acc).length
      = acc.length + l.length := by
    induction l with
    | nil => intro acc; simp
    | cons c rest ih =>
        intro acc
        rw [List.foldl_cons, ih (insertDesc c acc), insertDesc_length]
        simp only [List.length_cons]
        omega
  simpa [sortDesc] using h []

theorem injectOne_append {β : Type} (procs : List (String × β)) (nameO : Option String)
    (bucket : List (String × Config)) :
    ∃ suf, injectOne procs nameO bucket = bucket ++ suf := by
  cases nameO with
  | none => exact ⟨[], by simp [injectOne]⟩
  | some n =>
      rw [injectOne]
      split
      · exact ⟨[(n, [])], rfl⟩
      · exact ⟨[], by simp⟩

/-- C3: for every node, each resolved phase bucket is exactly the stable
descending-priority sort of the concatenated contributions of every
matching non-reserved rule (`collectCands` iterates the configuration in
declaration order and keeps duplicates), followed — for the inline and
post buckets only — by the builtin-recorder injection, which is empty
whenever the toggle is off.  Stability and order are captured by: the
sorted list is pairwise descending in priority, and for every priority
value the subsequence of that priority is exactly the declaration-order
subsequence of the candidates, with the overall length preserved (no
deduplication: a processor named by two matching rules appears twice). -/
theorem claim3_bucket_resolution (env : Env) (rel : List String) (isDir : Bool) :
    ((getProcessorsForPath env rel isDir).pre
        = (sortDesc (collectCands env.cfg.rules env.globm rel isDir Rule.pre_processors)).map
            (fun c => (c.name, c.config)))
    ∧ (∃ suf,
        (getProcessorsForPath env rel isDir).inl
          = (sortDesc (collectCands env.cfg.rules env.globm rel isDir Rule.processors)).map
              (fun c => (c.name, c.config)) ++ suf
        ∧ (env.cfg.enable_builtin_recorders = false → suf = []))
    ∧ (∃ suf,
        (getProcessorsForPath env rel isDir).post
          = (sortDesc (collectCands env.cfg.rules env.globm rel isDir Rule.post_processors)).map
              (fun c => (c.name, c.config)) ++ suf
        ∧ (env.cfg.enable_builtin_recorders = false → suf = []))
    ∧ (∀ (l : List Cand), (sortDesc l).Pairwise (fun a b => b.priority ≤ a.priority))
    ∧ (∀ (l : List Cand) (p : Int),
        (sortDesc l).filter (fun x => x.priority == p)
          = l.filter (fun x => x.priority == p))
    ∧ (∀ (l : List Cand), (sortDesc l).length = l.length) := by
  refine ⟨?_, ?_, ?_, sortDesc_pairwise, sortDesc_filter, sortDesc_length⟩
  · rw [getProcessorsForPath]
    split <;> rfl
  · rw [getProcessorsForPath]
    split
    · next he =>
        obtain ⟨suf, hs⟩ := injectOne_append env.procs env.cfg.builtin_record
          ((sortDesc (collectCands env.cfg.rules env.globm rel isDir Rule.processors)).map
            (fun c => (c.name, c.config)))
        exact ⟨suf, hs, fun hfalse => by rw [hfalse] at he; cases he⟩
    · exact ⟨[], by simp, fun _ => rfl⟩
  · rw [getProcessorsForPath]
    split
    · next he =>
        obtain ⟨suf, hs⟩ := injectOne_append env.procs env.cfg.builtin_persist
          ((sortDesc (collectCands env.cfg.rules env.globm rel isDir Rule.post_processors)).map
            (fun c => (c.name, c.config)))
        exact ⟨suf, hs, fun hfalse => by rw [hfalse] at he; cases he⟩
    · exact ⟨[], by simp, fun _ => rfl⟩

/-- C3 (witness): `claim3_bucket_resolution` at `env6` for node `a.txt`:
its inline bucket is exactly the sorted candidate list (no recorder
suffix, since the toggle is off). -/
theorem claim3_witness :
    (getProcessorsForPath env6 ["a.txt"] false).inl
      = (sortDesc (collectCands env6.cfg.rules env6.globm ["a.txt"] false Rule.processors)).map
          (fun c => (c.name, c.config)) := by
  obtain ⟨suf, hs, hnil⟩ := (claim3_bucket_resolution env6 ["a.txt"] false).2.1
  rw [hs, hnil rfl, List.append_nil]

/-! ## The bucket-execution master lemma (cancellation-free) -/

theorem hasName_false {β : Type} (l : List (String × β)) (n : String)
    (h : lookupName l n = Option.none) : hasName l n = false := by
  simp [hasName, h]

theorem hasName_true {β : Type} (l : List (String × β)) (n : String) (b : β)
    (h : lookupName l n = some b) : hasName l n = true := by
  simp [hasName, h]

theorem execLoop_master (env : Env) (rel : List String) (ph : String) (key : List String)
    (hc : env.cancel = fun _ => false) :
    ∀ (procs : List (String × Config)) (md : ExecRecord) (st : EngSt),
      ∃ ocs ws,
        ((execLoop env rel ph key procs md st).1.ctx.metadata
            = if procs.isEmpty then st.ctx.metadata
              else setMeta st.ctx.metadata key
                ⟨md.names ++ procs.map Prod.fst, md.configs ++ procs.map Prod.snd,
                 md.outcomes ++ ocs, md.seq, md.warnings ++ ws, md.errors⟩)
        ∧ (execLoop env rel ph key procs md st).1.step = st.step + procs.length
        ∧ (execLoop env rel ph key procs md st).2 = execEvs env procs rel ph
        ∧ List.Forall₂ (fun (_ : String × Config) oc => oc = "succeed" ∨ oc = "failed") procs ocs
        ∧ List.Forall₂ (fun (pc : String × Config) oc =>
            lookupName env.procs pc.1 = Option.none → oc = "failed") procs ocs
        ∧ (∀ pc ∈ procs, lookupName env.procs pc.1 = Option.none →
            (pc.1 ++ ": 未注册处理器") ∈ ws)
        ∧ ws.length = (ocs.filter (fun o => o == "failed")).length
        ∧ ((∀ nm p, lookupName env.procs nm = some p →
              ∀ r c s, (p r c s).1 = Option.none) →
            ocs = procs.map (fun pc => if hasName env.procs pc.1 then "succeed" else "failed"))
        ∧ ((∀ nm p, lookupName env.procs nm = some p →
              ∀ r c s, (p r c s).2.results = s.results) →
            (execLoop env rel ph key procs md st).1.ctx.pctx.results
              = st.ctx.pctx.results) := by
  intro procs
  induction procs with
  | nil =>
      intro md st
      refine ⟨[], [], ?_, ?_, ?_, List.Forall₂.nil, List.Forall₂.nil, ?_, rfl, ?_, ?_⟩
      · simp [execLoop]
      · simp [execLoop]
      · simp [execLoop, execEvs]
      · simp
      · intro _; rfl
      · intro _; simp [execLoop]
  | cons pc rest ih =>
      obtain ⟨nm, cfg⟩ := pc
      intro md st
      cases hl : lookupName env.procs nm with
      | none =>
          obtain ⟨ocs', ws', h1, h2, h3, h4, h5, h6, h7, h8, h9⟩ :=
            ih { md with
                  names := md.names ++ [nm], configs := md.configs ++ [cfg],
                  outcomes := md.outcomes ++ ["failed"],
                  warnings := md.warnings ++ [nm ++ ": 未注册处理器"] }
              { st with
                  step := st.step + 1, polls := st.polls + 1,
                  ctx := ⟨st.ctx.pctx,
                    setMeta st.ctx.metadata key
                      { md with
                        names := md.names ++ [nm], configs := md.configs ++ [cfg],
                        outcomes := md.outcomes ++ ["failed"],
                        warnings := md.warnings ++ [nm ++ ": 未注册处理器"] }⟩ }
          refine ⟨"failed" :: ocs', (nm ++ ": 未注册处理器") :: ws', ?_, ?_, ?_, ?_, ?_, ?_, ?_, ?_, ?_⟩
          · rw [show (execLoop env rel ph key ((nm, cfg) :: rest) md st).1
                = (execLoop env rel ph key rest
                    { md with
                      names := md.names ++ [nm], configs := md.configs ++ [cfg],
                      outcomes := md.outcomes ++ ["failed"],
                      warnings := md.warnings ++ [nm ++ ": 未注册处理器"] }
                    { st with
                      step := st.step + 1, polls := st.polls + 1,
                      ctx := ⟨st.ctx.pctx,
                        setMeta st.ctx.metadata key
                          { md with
                            names := md.names ++ [nm], configs := md.configs ++ [cfg],
                            outcomes := md.outcomes ++ ["failed"],
                            warnings := md.warnings ++ [nm ++ ": 未注册处理器"] }⟩ }).1
              from by simp [execLoop, pollSt, hc, hl]]
            rw [h1]
            by_cases hre : rest.isEmpty
            · rw [if_pos hre]
              have hre' : rest = [] := List.isEmpty_iff.mp hre
              subst hre'
              have hocs : ocs' = [] := by cases h4; rfl
              have hws : ws' = [] := by
                subst hocs
                simpa using List.length_eq_zero.mp (by simpa using h7)
              subst hocs
              subst hws
              simp
            · rw [if_neg hre]
              simp only [setMeta_setMeta]
              have hne : ((nm, cfg) :: rest).isEmpty = false := rfl
              rw [hne]
              simp only [Bool.false_eq_true, if_false]
              congr 1
              simp
          · rw [show (execLoop env rel ph key ((nm, cfg) :: rest) md st).1
                = (execLoop env rel ph key rest
                    { md with
                      names := md.names ++ [nm], configs := md.configs ++ [cfg],
                      outcomes := md.outcomes ++ ["failed"],
                      warnings := md.warnings ++ [nm ++ ": 未注册处理器"] }
                    { st with
                      step := st.step + 1, polls := st.polls + 1,
                      ctx := ⟨st.ctx.pctx,
                        setMeta st.ctx.metadata key
                          { md with
                            names := md.names ++ [nm], configs := md.configs ++ [cfg],
                            outcomes := md.outcomes ++ ["failed"],
                            warnings := md.warnings ++ [nm ++ ": 未注册处理器"] }⟩ }).1
              from by simp [execLoop, pollSt, hc, hl]]
            rw [h2]
            simp only [List.length_cons]
            omega
          · rw [show (execLoop env rel ph key ((nm, cfg) :: rest) md st).2
                = Ev.poll false :: Ev.attempt ph nm rel ::
                  (execLoop env rel ph key rest
                    { md with
                      names := md.names ++ [nm], configs := md.configs ++ [cfg],
                      outcomes := md.outcomes ++ ["failed"],
                      warnings := md.warnings ++ [nm ++ ": 未注册处理器"] }
                    { st with
                      step := st.step + 1, polls := st.polls + 1,
                      ctx := ⟨st.ctx.pctx,
                        setMeta st.ctx.metadata key
                          { md with
                            names := md.names ++ [nm], configs := md.configs ++ [cfg],
                            outcomes := md.outcomes ++ ["failed"],
                            warnings := md.warnings ++ [nm ++ ": 未注册处理器"] }⟩ }).2
              from by simp [execLoop, pollSt, hc, hl]]
            rw [h3]
            simp [execEvs, hasName_false env.procs nm hl]
          · exact List.Forall₂.cons (Or.inr rfl) h4
          · exact List.Forall₂.cons (fun _ => rfl) h5
          · intro qc hq hql
            rcases List.mem_cons.mp hq with hq1 | hq2
            · rw [hq1]
              exact List.mem_cons_self _ _
            · exact List.mem_cons_of_mem _ (h6 qc hq2 hql)
          · simp only [List.length_cons, List.filter_cons]
            have : (("failed" : String) == "failed") = true := by decide
            rw [this]
            simp [h7]
          · intro hnoerr
            rw [h8 hnoerr]
            simp [hasName_false env.procs nm hl]
          · intro hpres
            rw [show (execLoop env rel ph key ((nm, cfg) :: rest) md st).1
                = (execLoop env rel ph key rest
                    { md with
                      names := md.names ++ [nm], configs := md.configs ++ [cfg],
                      outcomes := md.outcomes ++ ["failed"],
                      warnings := md.warnings ++ [nm ++ ": 未注册处理器"] }
                    { st with
                      step := st.step + 1, polls := st.polls + 1,
                      ctx := ⟨st.ctx.pctx,
                        setMeta st.ctx.metadata key
                          { md with
                            names := md.names ++ [nm], configs := md.configs ++ [cfg],
                            outcomes := md.outcomes ++ ["failed"],
                            warnings := md.warnings ++ [nm ++ ": 未注册处理器"] }⟩ }).1
              from by simp [execLoop, pollSt, hc, hl]]
            exact h9 hpres
      | some p =>
          cases hr : (p rel cfg st.ctx.pctx).1 with
          | none =>
              obtain ⟨ocs', ws', h1, h2, h3, h4, h5, h6, h7, h8, h9⟩ :=
                ih { md with
                      names := md.names ++ [nm], configs := md.configs ++ [cfg],
                      outcomes := md.outcomes ++ ["succeed"] }
                  { st with
                      step := st.step + 1, polls := st.polls + 1,
                      ctx := ⟨(p rel cfg st.ctx.pctx).2,
                        setMeta st.ctx.metadata key
                          { md with
                            names := md.names ++ [nm], configs := md.configs ++ [cfg],
                            outcomes := md.outcomes ++ ["succeed"] }⟩ }
              refine ⟨"succeed" :: ocs', ws', ?_, ?_, ?_, ?_, ?_, ?_, ?_, ?_, ?_⟩
              · rw [show (execLoop env rel ph key ((nm, cfg) :: rest) md st).1
                    = (execLoop env rel ph key rest
                        { md with
                          names := md.names ++ [nm], configs := md.configs ++ [cfg],
                          outcomes := md.outcomes ++ ["succeed"] }
                        { st with
                          step := st.step + 1, polls := st.polls + 1,
                          ctx := ⟨(p rel cfg st.ctx.pctx).2,
                            setMeta st.ctx.metadata key
                              { md with
                                names := md.names ++ [nm], configs := md.configs ++ [cfg],
                                outcomes := md.outcomes ++ ["succeed"] }⟩ }).1
                  from by simp [execLoop, pollSt, hc, hl, hr]]
                rw [h1]
                by_cases hre : rest.isEmpty
                · rw [if_pos hre]
                  have hre' : rest = [] := List.isEmpty_iff.mp hre
                  subst hre'
                  have hocs : ocs' = [] := by cases h4; rfl
                  have hws : ws' = [] := by
                    subst hocs
                    simpa using List.length_eq_zero.mp (by simpa using h7)
                  subst hocs
                  subst hws
                  simp
                · rw [if_neg hre]
                  simp only [setMeta_setMeta]
                  have hne : ((nm, cfg) :: rest).isEmpty = false := rfl
                  rw [hne]
                  simp only [Bool.false_eq_true, if_false]
                  congr 1
                  simp
              · rw [show (execLoop env rel ph key ((nm, cfg) :: rest) md st).1
                    = (execLoop env rel ph key rest
                        { md with
                          names := md.names ++ [nm], configs := md.configs ++ [cfg],
                          outcomes := md.outcomes ++ ["succeed"] }
                        { st with
                          step := st.step + 1, polls := st.polls + 1,
                          ctx := ⟨(p rel cfg st.ctx.pctx).2,
                            setMeta st.ctx.metadata key
                              { md with
                                names := md.names ++ [nm], configs := md.configs ++ [cfg],
                                outcomes := md.outcomes ++ ["succeed"] }⟩ }).1
                  from by simp [execLoop, pollSt, hc, hl, hr]]
                rw [h2]
                simp only [List.length_cons]
                omega
              · rw [show (execLoop env rel ph key ((nm, cfg) :: rest) md st).2
                    = Ev.poll false :: Ev.attempt ph nm rel :: Ev.invoke ph nm rel ::
                      (execLoop env rel ph key rest
                        { md with
                          names := md.names ++ [nm], configs := md.configs ++ [cfg],
                          outcomes := md.outcomes ++ ["succeed"] }
                        { st with
                          step := st.step + 1, polls := st.polls + 1,
                          ctx := ⟨(p rel cfg st.ctx.pctx).2,
                            setMeta st.ctx.metadata key
                              { md with
                                names := md.names ++ [nm], configs := md.configs ++ [cfg],
                                outcomes := md.outcomes ++ ["succeed"] }⟩ }).2
                  from by simp [execLoop, pollSt, hc, hl, hr]]
                rw [h3]
                simp [execEvs, hasName_true env.procs nm p hl]
              · exact List.Forall₂.cons (Or.inl rfl) h4
              · exact List.Forall₂.cons (fun hcon => by rw [hl] at hcon; cases hcon) h5
              · intro qc hq hql
                rcases List.mem_cons.mp hq with hq1 | hq2
                · rw [hq1] at hql
                  rw [hl] at hql
                  cases hql
                · exact h6 qc hq2 hql
              · simp only [List.filter_cons]
                have : (("succeed" : String) == "failed") = false := by decide
                rw [this]
                simp [h7]
              · intro hnoerr
                rw [h8 hnoerr]
                simp [hasName_true env.procs nm p hl]
              · intro hpres
                rw [show (execLoop env rel ph key ((nm, cfg) :: rest) md st).1
                    = (execLoop env rel ph key rest
                        { md with
                          names := md.names ++ [nm], configs := md.configs ++ [cfg],
                          outcomes := md.outcomes ++ ["succeed"] }
                        { st with
                          step := st.step + 1, polls := st.polls + 1,
                          ctx := ⟨(p rel cfg st.ctx.pctx).2,
                            setMeta st.ctx.metadata key
                              { md with
                                names := md.names ++ [nm], configs := md.configs ++ [cfg],
                                outcomes := md.outcomes ++ ["succeed"] }⟩ }).1
                  from by simp [execLoop, pollSt, hc, hl, hr]]
                rw [h9 hpres]
                exact hpres nm p hl rel cfg st.ctx.pctx
          | some e =>
              obtain ⟨ocs', ws', h1, h2, h3, h4, h5, h6, h7, h8, h9⟩ :=
                ih { md with
                      names := md.names ++ [nm], configs := md.configs ++ [cfg],
                      outcomes := md.outcomes ++ ["failed"],
                      warnings := md.warnings ++ [nm ++ ": " ++ e] }
                  { st with
                      step := st.step + 1, polls := st.polls + 1,
                      ctx := ⟨(p rel cfg st.ctx.pctx).2,
                        setMeta st.ctx.metadata key
                          { md with
                            names := md.names ++ [nm], configs := md.configs ++ [cfg],
                            outcomes := md.outcomes ++ ["failed"],
                            warnings := md.warnings ++ [nm ++ ": " ++ e] }⟩ }
              refine ⟨"failed" :: ocs', (nm ++ ": " ++ e) :: ws', ?_, ?_, ?_, ?_, ?_, ?_, ?_, ?_, ?_⟩
              · rw [show (execLoop env rel ph key ((nm, cfg) :: rest) md st).1
                    = (execLoop env rel ph key rest
                        { md with
                          names := md.names ++ [nm], configs := md.configs ++ [cfg],
                          outcomes := md.outcomes ++ ["failed"],
                          warnings := md.warnings ++ [nm ++ ": " ++ e] }
                        { st with
                          step := st.step + 1, polls := st.polls + 1,
                          ctx := ⟨(p rel cfg st.ctx.pctx).2,
                            setMeta st.ctx.metadata key
                              { md with
                                names := md.names ++ [nm], configs := md.configs ++ [cfg],
                                outcomes := md.outcomes ++ ["failed"],
                                warnings := md.warnings ++ [nm ++ ": " ++ e] }⟩ }).1
                  from by simp [execLoop, pollSt, hc, hl, hr]]
                rw [h1]
                by_cases hre : rest.isEmpty
                · rw [if_pos hre]
                  have hre' : rest = [] := List.isEmpty_iff.mp hre
                  subst hre'
                  have hocs : ocs' = [] := by cases h4; rfl
                  have hws : ws' = [] := by
                    subst hocs
                    simpa using List.length_eq_zero.mp (by simpa using h7)
                  subst hocs
                  subst hws
                  simp
                · rw [if_neg hre]
                  simp only [setMeta_setMeta]
                  have hne : ((nm, cfg) :: rest).isEmpty = false := rfl
                  rw [hne]
                  simp only [Bool.false_eq_true, if_false]
                  congr 1
                  simp
              · rw [show (execLoop env rel ph key ((nm, cfg) :: rest) md st).1
                    = (execLoop env rel ph key rest
                        { md with
                          names := md.names ++ [nm], configs := md.configs ++ [cfg],
                          outcomes := md.outcomes ++ ["failed"],
                          warnings := md.warnings ++ [nm ++ ": " ++ e] }
                        { st with
                          step := st.step + 1, polls := st.polls + 1,
                          ctx := ⟨(p rel cfg st.ctx.pctx).2,
                            setMeta st.ctx.metadata key
                              { md with
                                names := md.names ++ [nm], configs := md.configs ++ [cfg],
                                outcomes := md.outcomes ++ ["failed"],
                                warnings := md.warnings ++ [nm ++ ": " ++ e] }⟩ }).1
                  from by simp [execLoop, pollSt, hc, hl, hr]]
                rw [h2]
                simp only [List.length_cons]
                omega
              · rw [show (execLoop env rel ph key ((nm, cfg) :: rest) md st).2
                    = Ev.poll false :: Ev.attempt ph nm rel :: Ev.invoke ph nm rel ::
                      (execLoop env rel ph key rest
                        { md with
                          names := md.names ++ [nm], configs := md.configs ++ [cfg],
                          outcomes := md.outcomes ++ ["failed"],
                          warnings := md.warnings ++ [nm ++ ": " ++ e] }
                        { st with
                          step := st.step + 1, polls := st.polls + 1,
                          ctx := ⟨(p rel cfg st.ctx.pctx).2,
                            setMeta st.ctx.metadata key
                              { md with
                                names := md.names ++ [nm], configs := md.configs ++ [cfg],
                                outcomes := md.outcomes ++ ["failed"],
                                warnings := md.warnings ++ [nm ++ ": " ++ e] }⟩ }).2
                  from by simp [execLoop, pollSt, hc, hl, hr]]
                rw [h3]
                simp [execEvs, hasName_true env.procs nm p hl]
              · exact List.Forall₂.cons (Or.inr rfl) h4
              · exact List.Forall₂.cons (fun _ => rfl) h5
              · intro qc hq hql
                rcases List.mem_cons.mp hq with hq1 | hq2
                · rw [hq1] at hql
                  rw [hl] at hql
                  cases hql
                · exact List.mem_cons_of_mem _ (h6 qc hq2 hql)
              · simp only [List.length_cons, List.filter_cons]
                have : (("failed" : String) == "failed") = true := by decide
                rw [this]
                simp [h7]
              · intro hnoerr
                exfalso
                have := hnoerr nm p hl rel cfg st.ctx.pctx
                rw [this] at hr
                cases hr
              · intro hpres
                rw [show (execLoop env rel ph key ((nm, cfg) :: rest) md st).1
                    = (execLoop env rel ph key rest
                        { md with
                          names := md.names ++ [nm], configs := md.configs ++ [cfg],
                          outcomes := md.outcomes ++ ["failed"],
                          warnings := md.warnings ++ [nm ++ ": " ++ e] }
                        { st with
                          step := st.step + 1, polls := st.polls + 1,
                          ctx := ⟨(p rel cfg st.ctx.pctx).2,
                            setMeta st.ctx.metadata key
                              { md with
                                names := md.names ++ [nm], configs := md.configs ++ [cfg],
                                outcomes := md.outcomes ++ ["failed"],
                                warnings := md.warnings ++ [nm ++ ": " ++ e] }⟩ }).1
                  from by simp [execLoop, pollSt, hc, hl, hr]]
                rw [h9 hpres]
                exact hpres nm p hl rel cfg st.ctx.pctx

theorem execList_master (env : Env) (rel : List String) (ph : String)
    (hc : env.cancel = fun _ => false) (procs : List (String × Config)) (st : EngSt) :
    ∃ ocs ws,
      ((execList env procs rel ph st).1.ctx.metadata
          = setMeta st.ctx.metadata (partsKey rel)
              ⟨procs.map Prod.fst, procs.map Prod.snd, ocs, Option.none, ws, []⟩)
      ∧ (execList env procs rel ph st).1.step = st.step + procs.length
      ∧ (execList env procs rel ph st).2 = execEvs env procs rel ph
      ∧ List.Forall₂ (fun (_ : String × Config) oc => oc = "succeed" ∨ oc = "failed") procs ocs
      ∧ List.Forall₂ (fun (pc : String × Config) oc =>
          lookupName env.procs pc.1 = Option.none → oc = "failed") procs ocs
      ∧ (∀ pc ∈ procs, lookupName env.procs pc.1 = Option.none →
          (pc.1 ++ ": 未注册处理器") ∈ ws)
      ∧ ws.length = (ocs.filter (fun o => o == "failed")).length
      ∧ ((∀ nm p, lookupName env.procs nm = some p →
            ∀ r c s, (p r c s).1 = Option.none) →
          ocs = procs.map (fun pc => if hasName env.procs pc.1 then "succeed" else "failed"))
      ∧ ((∀ nm p, lookupName env.procs nm = some p →
            ∀ r c s, (p r c s).2.results = s.results) →
          (execList env procs rel ph st).1.ctx.pctx.results = st.ctx.pctx.results) := by
  obtain ⟨ocs, ws, h1, h2, h3, h4, h5, h6, h7, h8, h9⟩ :=
    execLoop_master env rel ph (partsKey rel) hc procs emptyRecord
      { st with ctx := ⟨st.ctx.pctx, setMeta st.ctx.metadata (partsKey rel) emptyRecord⟩ }
  have hunf : execList env procs rel ph st
      = execLoop env rel ph (partsKey rel) procs emptyRecord
          { st with ctx := ⟨st.ctx.pctx, setMeta st.ctx.metadata (partsKey rel) emptyRecord⟩ } := by
    simp [execList]
  refine ⟨ocs, ws, ?_, ?_, ?_, h4, h5, h6, h7, h8, ?_⟩
  · rw [hunf, h1]
    by_cases hpe : procs.isEmpty
    · rw [if_pos hpe]
      have hpe' : procs = [] := List.isEmpty_iff.mp hpe
      subst hpe'
      have hocs : ocs = [] := by cases h4; rfl
      have hws : ws = [] := by
        subst hocs
        simpa using List.length_eq_zero.mp (by simpa using h7)
      subst hocs
      subst hws
      simp [emptyRecord]
    · rw [if_neg hpe]
      simp [setMeta_setMeta, emptyRecord]
  · rw [hunf, h2]
  · rw [hunf, h3]
  · intro hpres
    rw [hunf]
    exact h9 hpres

theorem execLoop_cols (env : Env) (rel : List String) (ph : String) (key : List String)
    (hc : env.cancel = fun _ => false) :
    ∀ (procs : List (String × Config)) (md : ExecRecord) (st : EngSt),
      (execLoop env rel ph key procs md st).1.ctx.metadata
        = if procs.isEmpty then st.ctx.metadata
          else setMeta st.ctx.metadata key
            ⟨md.names ++ procs.map Prod.fst, md.configs ++ procs.map Prod.snd,
             md.outcomes ++ (bucketCols env rel procs st.ctx.pctx).1, md.seq,
             md.warnings ++ (bucketCols env rel procs st.ctx.pctx).2, md.errors⟩ := by
  intro procs
  induction procs with
  | nil =>
      intro md st
      simp [execLoop]
  | cons pc rest ih =>
      obtain ⟨nm, cfg⟩ := pc
      intro md st
      cases hl : lookupName env.procs nm with
      | none =>
          rw [show (execLoop env rel ph key ((nm, cfg) :: rest) md st).1
              = (execLoop env rel ph key rest
                  { md with
                    names := md.names ++ [nm], configs := md.configs ++ [cfg],
                    outcomes := md.outcomes ++ ["failed"],
                    warnings := md.warnings ++ [nm ++ ": 未注册处理器"] }
                  { st with
                    step := st.step + 1, polls := st.polls + 1,
                    ctx := ⟨st.ctx.pctx,
                      setMeta st.ctx.metadata key
                        { md with
                          names := md.names ++ [nm], configs := md.configs ++ [cfg],
                          outcomes := md.outcomes ++ ["failed"],
                          warnings := md.warnings ++ [nm ++ ": 未注册处理器"] }⟩ }).1
            from by simp [execLoop, pollSt, hc, hl]]
          rw [ih]
          by_cases hre : rest.isEmpty
          · rw [if_pos hre]
            have hre' : rest = [] := List.isEmpty_iff.mp hre
            subst hre'
            simp [bucketCols, hl]
          · rw [if_neg hre]
            simp only [setMeta_setMeta]
            have hne : ((nm, cfg) :: rest).isEmpty = false := rfl
            rw [hne]
            simp only [Bool.false_eq_true, if_false]
            have hbc : bucketCols env rel ((nm, cfg) :: rest) st.ctx.pctx
                = ("failed" :: (bucketCols env rel rest st.ctx.pctx).1,
                   (nm ++ ": 未注册处理器") :: (bucketCols env rel rest st.ctx.pctx).2) := by
              simp [bucketCols, hl]
            rw [hbc]
            congr 1
            simp
      | some p =>
          cases hr : (p rel cfg st.ctx.pctx).1 with
          | none =>
              rw [show (execLoop env rel ph key ((nm, cfg) :: rest) md st).1
                  = (execLoop env rel ph key rest
                      { md with
                        names := md.names ++ [nm], configs := md.configs ++ [cfg],
                        outcomes := md.outcomes ++ ["succeed"] }
                      { st with
                        step := st.step + 1, polls := st.polls + 1,
                        ctx := ⟨(p rel cfg st.ctx.pctx).2,
                          setMeta st.ctx.metadata key
                            { md with
                              names := md.names ++ [nm], configs := md.configs ++ [cfg],
                              outcomes := md.outcomes ++ ["succeed"] }⟩ }).1
                from by simp [execLoop, pollSt, hc, hl, hr]]
              rw [ih]
              have hbc : bucketCols env rel ((nm, cfg) :: rest) st.ctx.pctx
                  = ("succeed" :: (bucketCols env rel rest (p rel cfg st.ctx.pctx).2).1,
                     (bucketCols env rel rest (p rel cfg st.ctx.pctx).2).2) := by
                simp [bucketCols, hl, hr]
              by_cases hre : rest.isEmpty
              · rw [if_pos hre]
                have hre' : rest = [] := List.isEmpty_iff.mp hre
                subst hre'
                rw [hbc]
                simp [bucketCols]
              · rw [if_neg hre]
                simp only [setMeta_setMeta]
                have hne : ((nm, cfg) :: rest).isEmpty = false := rfl
                rw [hne]
                simp only [Bool.false_eq_true, if_false]
                rw [hbc]
                congr 1
                simp
          | some e =>
              rw [show (execLoop env rel ph key ((nm, cfg) :: rest) md st).1
                  = (execLoop env rel ph key rest
                      { md with
                        names := md.names ++ [nm], configs := md.configs ++ [cfg],
                        outcomes := md.outcomes ++ ["failed"],
                        warnings := md.warnings ++ [nm ++ ": " ++ e] }
                      { st with
                        step := st.step + 1, polls := st.polls + 1,
                        ctx := ⟨(p rel cfg st.ctx.pctx).2,
                          setMeta st.ctx.metadata key
                            { md with
                              names := md.names ++ [nm], configs := md.configs ++ [cfg],
                              outcomes := md.outcomes ++ ["failed"],
                              warnings := md.warnings ++ [nm ++ ": " ++ e] }⟩ }).1
                from by simp [execLoop, pollSt, hc, hl, hr]]
              rw [ih]
              have hbc : bucketCols env rel ((nm, cfg) :: rest) st.ctx.pctx
                  = ("failed" :: (bucketCols env rel rest (p rel cfg st.ctx.pctx).2).1,
                     (nm ++ ": " ++ e) :: (bucketCols env rel rest (p rel cfg st.ctx.pctx).2).2) := by
                simp [bucketCols, hl, hr]
              by_cases hre : rest.isEmpty
              · rw [if_pos hre]
                have hre' : rest = [] := List.isEmpty_iff.mp hre
                subst hre'
                rw [hbc]
                simp [bucketCols]
              · rw [if_neg hre]
                simp only [setMeta_setMeta]
                have hne : ((nm, cfg) :: rest).isEmpty = false := rfl
                rw [hne]
                simp only [Bool.false_eq_true, if_false]
                rw [hbc]
                congr 1
                simp

theorem execList_cols (env : Env) (rel : List String) (ph : String)
    (hc : env.cancel = fun _ => false) (procs : List (String × Config)) (st : EngSt) :
    (execList env procs rel ph st).1.ctx.metadata
      = setMeta st.ctx.metadata (partsKey rel)
          ⟨procs.map Prod.fst, procs.map Prod.snd,
           (bucketCols env rel procs st.ctx.pctx).1, Option.none,
           (bucketCols env rel procs st.ctx.pctx).2, []⟩ := by
  have hunf : execList env procs rel ph st
      = execLoop env rel ph (partsKey rel) procs emptyRecord
          { st with ctx := ⟨st.ctx.pctx, setMeta st.ctx.metadata (partsKey rel) emptyRecord⟩ } := by
    simp [execList]
  rw [hunf, execLoop_cols env rel ph (partsKey rel) hc procs emptyRecord]
  by_cases hpe : procs.isEmpty
  · rw [if_pos hpe]
    have hpe' : procs = [] := List.isEmpty_iff.mp hpe
    subst hpe'
    simp [bucketCols, emptyRecord]
  · rw [if_neg hpe]
    simp [setMeta_setMeta, emptyRecord]

theorem bucketCols_length (env : Env) (rel : List String) :
    ∀ (procs : List (String × Config)) (s : PCtx),
      (bucketCols env rel procs s).1.length = procs.length := by
  intro procs
  induction procs with
  | nil => intro s; simp [bucketCols]
  | cons pc rest ih =>
      obtain ⟨nm, cfg⟩ := pc
      intro s
      cases hl : lookupName env.procs nm with
      | none => simp [bucketCols, hl, ih]
      | some p =>
          cases hr : (p rel cfg s).1 with
          | none => simp [bucketCols, hl, hr, ih]
          | some e => simp [bucketCols, hl, hr, ih]

theorem bucketCols_forall (env : Env) (rel : List String) :
    ∀ (procs : List (String × Config)) (s : PCtx),
      List.Forall₂ (fun (pc : String × Config) oc =>
          (oc = "succeed" ∨ oc = "failed")
          ∧ (lookupName env.procs pc.1 = Option.none → oc = "failed"))
        procs (bucketCols env rel procs s).1 := by
  intro procs
  induction procs with
  | nil => intro s; simp [bucketCols]
  | cons pc rest ih =>
      obtain ⟨nm, cfg⟩ := pc
      intro s
      cases hl : lookupName env.procs nm with
      | none =>
          have hbc : (bucketCols env rel ((nm, cfg) :: rest) s).1
              = "failed" :: (bucketCols env rel rest s).1 := by simp [bucketCols, hl]
          rw [hbc]
          exact List.Forall₂.cons ⟨Or.inr rfl, fun _ => rfl⟩ (ih s)
      | some p =>
          cases hr : (p rel cfg s).1 with
          | none =>
              have hbc : (bucketCols env rel ((nm, cfg) :: rest) s).1
                  = "succeed" :: (bucketCols env rel rest (p rel cfg s).2).1 := by
                simp [bucketCols, hl, hr]
              rw [hbc]
              refine List.Forall₂.cons ⟨Or.inl rfl, fun hcon => ?_⟩ (ih _)
              rw [hl] at hcon
              cases hcon
          | some e =>
              have hbc : (bucketCols env rel ((nm, cfg) :: rest) s).1
                  = "failed" :: (bucketCols env rel rest (p rel cfg s).2).1 := by
                simp [bucketCols, hl, hr]
              rw [hbc]
              exact List.Forall₂.cons ⟨Or.inr rfl, fun _ => rfl⟩ (ih _)

theorem bucketCols_note (env : Env) (rel : List String) :
    ∀ (procs : List (String × Config)) (s : PCtx), ∀ pc ∈ procs,
      lookupName env.procs pc.1 = Option.none →
      (pc.1 ++ ": 未注册处理器") ∈ (bucketCols env rel procs s).2 := by
  intro procs
  induction procs with
  | nil => intro s pc h; cases h
  | cons qc rest ih =>
      obtain ⟨nm, cfg⟩ := qc
      intro s pc hmem hln
      cases hl : lookupName env.procs nm with
      | none =>
          have hbc : (bucketCols env rel ((nm, cfg) :: rest) s).2
              = (nm ++ ": 未注册处理器") :: (bucketCols env rel rest s).2 := by
            simp [bucketCols, hl]
          rw [hbc]
          rcases List.mem_cons.mp hmem with h1 | h2
          · rw [h1]
            exact List.mem_cons_self _ _
          · exact List.mem_cons_of_mem _ (ih s pc h2 hln)
      | some p =>
          rcases List.mem_cons.mp hmem with h1 | h2
          · rw [h1] at hln
            dsimp only at hln
            rw [hl] at hln
            cases hln
          · cases hr : (p rel cfg s).1 with
            | none =>
                have hbc : (bucketCols env rel ((nm, cfg) :: rest) s).2
                    = (bucketCols env rel rest (p rel cfg s).2).2 := by
                  simp [bucketCols, hl, hr]
                rw [hbc]
                exact ih _ pc h2 hln
            | some e =>
                have hbc : (bucketCols env rel ((nm, cfg) :: rest) s).2
                    = (nm ++ ": " ++ e) :: (bucketCols env rel rest (p rel cfg s).2).2 := by
                  simp [bucketCols, hl, hr]
                rw [hbc]
                exact List.mem_cons_of_mem _ (ih _ pc h2 hln)

theorem bucketCols_all_normal (env : Env) (rel : List String)
    (hnoerr : ∀ nm p, lookupName env.procs nm = some p →
        ∀ r c s, (p r c s).1 = Option.none) :
    ∀ (procs : List (String × Config)) (s : PCtx),
      (bucketCols env rel procs s).1
        = procs.map (fun pc => if hasName env.procs pc.1 then "succeed" else "failed") := by
  intro procs
  induction procs with
  | nil => intro s; simp [bucketCols]
  | cons pc rest ih =>
      obtain ⟨nm, cfg⟩ := pc
      intro s
      cases hl : lookupName env.procs nm with
      | none => simp [bucketCols, hl, ih, hasName]
      | some p =>
          have hr : (p rel cfg s).1 = Option.none := hnoerr nm p hl rel cfg s
          simp [bucketCols, hl, hr, ih, hasName]

/-- C2 (counterexample): the engine never appends a `ResultEntry` on a
processor's normal return (recording was moved out of the engine; the
source comments this explicitly).  Concretely, in `env6` the registered
processor `p1` is invoked on `a.txt` and returns normally, yet the flat
`results` sequence is empty after the run. -/
theorem claim2_counterexample :
    Ev.invoke "pre" "p1" ["a.txt"] ∈ (run env6 tree6 ctxEmpty).2.2
    ∧ (run env6 tree6 ctxEmpty).1.pctx.results = [] := by
  constructor
  · simp [run, globalPre, globalPost, processRec, childLoop, execPhase, execList, execLoop,
      getProcessorsForPath, collectCands, matchRule, pollSt, sortDesc, insertDesc,
      ruleContrib, reservedKey, partsKey, partsKeyAux, setMeta, setWalk, alistSet,
      alistGet, lookupName, emptyRecord, okP, posixOf, joinSlash, endsWithSlash,
      sortKids, insertKid,
      env6, tree6, ctxEmpty, hasName, injectOne, stripSlashes, FsTree.isDir,
      FsTree.name]
  · simp [run, globalPre, globalPost, processRec, childLoop, execPhase, execList, execLoop,
      getProcessorsForPath, collectCands, matchRule, pollSt, sortDesc, insertDesc,
      ruleContrib, reservedKey, partsKey, partsKeyAux, setMeta, setWalk, alistSet,
      alistGet, lookupName, emptyRecord, okP, posixOf, joinSlash, endsWithSlash,
      sortKids, insertKid,
      env6, tree6, ctxEmpty, hasName, injectOne, stripSlashes, FsTree.isDir,
      FsTree.name]

/-- C2 (amended): for each `(processor_name, config)` pair of a bucket,
in bucket order and in the absence of cancellation, the node's record
gains exactly one entry: the name and config columns list every entry
and the outcome and warning columns are exactly `bucketCols`, whose
head equations (stated below as conjuncts) show that an unregistered
name is marked `failed` with a `未注册处理器` note, that a registered
processor is invoked (the trace shows one attempt per entry and an
invocation exactly for registered names, in bucket order) and marked
`succeed` on normal return, and that on a fault the outcome `failed`
is marked and the captured message is appended to the record's warning
list — a fault or missing name never stops the remainder of the bucket
or the run (the columns cover every entry).  The engine itself appends
no `ResultEntry`: when processors leave `results` alone, the store is
unchanged. -/
theorem claim2_bucket_fault_isolation (env : Env) (procs : List (String × Config))
    (rel : List String) (ph : String) (st : EngSt)
    (hc : env.cancel = fun _ => false) :
    ((execList env procs rel ph st).1.ctx.metadata
        = setMeta st.ctx.metadata (partsKey rel)
            ⟨procs.map Prod.fst, procs.map Prod.snd,
             (bucketCols env rel procs st.ctx.pctx).1, Option.none,
             (bucketCols env rel procs st.ctx.pctx).2, []⟩)
    ∧ (execList env procs rel ph st).2 = execEvs env procs rel ph
    ∧ (bucketCols env rel procs st.ctx.pctx).1.length = procs.length
    ∧ List.Forall₂ (fun (_ : String × Config) oc => oc = "succeed" ∨ oc = "failed")
        procs (bucketCols env rel procs st.ctx.pctx).1
    ∧ List.Forall₂ (fun (pc : String × Config) oc =>
        lookupName env.procs pc.1 = Option.none → oc = "failed")
        procs (bucketCols env rel procs st.ctx.pctx).1
    ∧ (∀ pc ∈ procs, lookupName env.procs pc.1 = Option.none →
        (pc.1 ++ ": 未注册处理器") ∈ (bucketCols env rel procs st.ctx.pctx).2)
    ∧ (∀ (s : PCtx) (nm : String) (cfg : Config) (rest : List (String × Config)),
        lookupName env.procs nm = Option.none →
        bucketCols env rel ((nm, cfg) :: rest) s
          = ("failed" :: (bucketCols env rel rest s).1,
             (nm ++ ": 未注册处理器") :: (bucketCols env rel rest s).2))
    ∧ (∀ (s : PCtx) (nm : String) (cfg : Config) (rest : List (String × Config)) p,
        lookupName env.procs nm = some p → (p rel cfg s).1 = Option.none →
        bucketCols env rel ((nm, cfg) :: rest) s
          = ("succeed" :: (bucketCols env rel rest (p rel cfg s).2).1,
             (bucketCols env rel rest (p rel cfg s).2).2))
    ∧ (∀ (s : PCtx) (nm : String) (cfg : Config) (rest : List (String × Config)) p e,
        lookupName env.procs nm = some p → (p rel cfg s).1 = some e →
        bucketCols env rel ((nm, cfg) :: rest) s
          = ("failed" :: (bucketCols env rel rest (p rel cfg s).2).1,
             (nm ++ ": " ++ e) :: (bucketCols env rel rest (p rel cfg s).2).2))
    ∧ ((∀ nm p, lookupName env.procs nm = some p →
          ∀ r c s, (p r c s).1 = Option.none) →
        (bucketCols env rel procs st.ctx.pctx).1
          = procs.map (fun pc => if hasName env.procs pc.1 then "succeed" else "failed"))
    ∧ ((∀ nm p, lookupName env.procs nm = some p →
          ∀ r c s, (p r c s).2.results = s.results) →
        (execList env procs rel ph st).1.ctx.pctx.results = st.ctx.pctx.results) := by
  obtain ⟨ocs, ws, h1, h2, h3, h4, h5, h6, h7, h8, h9⟩ :=
    execList_master env rel ph hc procs st
  refine ⟨execList_cols env rel ph hc procs st, h3,
    bucketCols_length env rel procs st.ctx.pctx, ?_, ?_, ?_, ?_, ?_, ?_,
    fun hnr => bucketCols_all_normal env rel hnr procs st.ctx.pctx,
    fun hp => h9 hp⟩
  · exact List.Forall₂.imp (fun a b hab => hab.1) (bucketCols_forall env rel procs st.ctx.pctx)
  · exact List.Forall₂.imp (fun a b hab => hab.2) (bucketCols_forall env rel procs st.ctx.pctx)
  · exact fun pc hm hln => bucketCols_note env rel procs st.ctx.pctx pc hm hln
  · intro s nm cfg rest hln
    simp [bucketCols, hln]
  · intro s nm cfg rest p hln hret
    simp [bucketCols, hln, hret]
  · intro s nm cfg rest p e hln hret
    simp [bucketCols, hln, hret]

/-- C2 (witness): `claim2_bucket_fault_isolation` on the bucket
`[p1, pf, nope]` over `env2w`: `p1` is registered and returns normally,
`pf` is registered and raises `boom`, `nope` is unregistered — the final
record names all three, marks them `succeed`/`failed`/`failed`, and its
warning column carries the captured fault message and the unregistered
note, in bucket order. -/
theorem claim2_witness :
    (env2w.cancel = fun _ => false)
    ∧ (execList env2w [("p1", []), ("pf", []), ("nope", [])] ["a.txt"] "pre"
          ⟨ctxEmpty, 0, 0⟩).1.ctx.metadata
        = [("a.txt", NTree.leaf
            ⟨["p1", "pf", "nope"], [[], [], []], ["succeed", "failed", "failed"],
             Option.none, ["pf: boom", "nope: 未注册处理器"], []⟩)] := by
  refine ⟨rfl, ?_⟩
  rw [(claim2_bucket_fault_isolation env2w [("p1", []), ("pf", []), ("nope", [])]
      ["a.txt"] "pre" ⟨ctxEmpty, 0, 0⟩ rfl).1]
  simp [bucketCols, lookupName, okP, failP, env2w, ctxEmpty, setMeta, setWalk,
    partsKey, partsKeyAux, alistGet, alistSet, posixOf, joinSlash, endsWithSlash,
    stripSlashes]

/-- C7 (counterexample): a non-fatal failure recorded in a node's pre
phase does not survive the node's post phase: in `env7` the unregistered
name `bad` is attempted in the pre bucket (outcome `failed`, note
appended), but the post-bucket executor reinstalls a fresh record at the
same key, so after the run the audit trail holds only the post record —
the failure note is gone, and the flat `results` sequence (to which the
engine never writes) is empty. -/
theorem claim7_counterexample :
    (run env7 (FsTree.file "root") ctxEmpty).1.metadata
      = [(".", NTree.leaf ⟨["r"], [[]], ["succeed"], Option.none, [], []⟩)]
    ∧ Ev.attempt "pre" "bad" [] ∈ (run env7 (FsTree.file "root") ctxEmpty).2.2
    ∧ (run env7 (FsTree.file "root") ctxEmpty).1.pctx.results = [] := by
  refine ⟨?_, ?_, ?_⟩ <;>
    simp [run, globalPre, globalPost, processRec, childLoop, execPhase, execList, execLoop,
      getProcessorsForPath, collectCands, matchRule, pollSt, sortDesc, insertDesc,
      ruleContrib, reservedKey, partsKey, partsKeyAux, setMeta, setWalk, alistSet,
      alistGet, lookupName, emptyRecord, okP, posixOf, joinSlash, endsWithSlash,
      sortKids, insertKid,
      env7, ctxEmpty, hasName, injectOne, stripSlashes, FsTree.isDir, FsTree.name]

/-- C7 (amended): within one bucket execution no failure is dropped — the
final record at the node's key names every entry, carries one warning
note per failed outcome (unregistered names included), and is fully
rebuilt from this bucket alone: the executor resets the node's record on
entry, so a later phase-bucket execution at the same node replaces
whatever the earlier phase recorded.  Failures inside the progress
persistence sink have no effect on the run state at all (the status-line
write is absent from the state transition). -/
theorem claim7_failure_notes_per_bucket (env : Env) (procs : List (String × Config))
    (rel : List String) (ph : String) (st : EngSt)
    (hc : env.cancel = fun _ => false) :
    ∃ ocs ws,
      ((execList env procs rel ph st).1.ctx.metadata
          = setMeta st.ctx.metadata (partsKey rel)
              ⟨procs.map Prod.fst, procs.map Prod.snd, ocs, Option.none, ws, []⟩)
      ∧ ws.length = (ocs.filter (fun o => o == "failed")).length
      ∧ (∀ pc ∈ procs, lookupName env.procs pc.1 = Option.none →
          (pc.1 ++ ": 未注册处理器") ∈ ws)
      ∧ List.Forall₂ (fun (_ : String × Config) oc => oc = "succeed" ∨ oc = "failed") procs ocs := by
  obtain ⟨ocs, ws, h1, h2, h3, h4, h5, h6, h7, h8, h9⟩ :=
    execList_master env rel ph hc procs st
  exact ⟨ocs, ws, h1, h7, h6, h4⟩

/-- C7 (witness): `claim7_failure_notes_per_bucket` on the bucket
`[bad]` over `env7` at the root: one failed outcome, one warning note. -/
theorem claim7_witness :
    (env7.cancel = fun _ => false)
    ∧ ∃ ocs ws,
        (execList env7 [("bad", [])] [] "pre" ⟨ctxEmpty, 0, 0⟩).1.ctx.metadata
          = setMeta ctxEmpty.metadata (partsKey [])
              ⟨["bad"], [[]], ocs, Option.none, ws, []⟩
        ∧ ws.length = (ocs.filter (fun o => o == "failed")).length
        ∧ ("bad" ++ ": 未注册处理器") ∈ ws := by
  refine ⟨rfl, ?_⟩
  obtain ⟨ocs, ws, h1, h2, h3, h4⟩ :=
    claim7_failure_notes_per_bucket env7 [("bad", [])] [] "pre" ⟨ctxEmpty, 0, 0⟩ rfl
  refine ⟨ocs, ws, ?_, h2, ?_⟩
  · simpa using h1
  · exact h3 ("bad", []) (by simp) (by rfl)

/-- C6 (code bug): the `sequence_number` slot of a node's
`ExecutionRecord` is installed as `None` and never assigned anywhere in
the engine, so it is not an integer and cannot be strictly increasing.
At the failing input (`env6` on a root holding `a.txt`, where `p1`
matches and succeeds) the stored record is
`[["p1"], [{}], ["succeed"], None, [], []]` — its fourth field is `None`. -/
theorem claim6_sequence_number_never_set :
    (run env6 tree6 ctxEmpty).1.metadata
      = [("a.txt", NTree.leaf ⟨["p1"], [[]], ["succeed"], Option.none, [], []⟩)] := by
  simp [run, globalPre, globalPost, processRec, childLoop, execPhase, execList, execLoop,
    getProcessorsForPath, collectCands, matchRule, pollSt, sortDesc, insertDesc,
    ruleContrib, reservedKey, partsKey, partsKeyAux, setMeta, setWalk, alistSet,
    alistGet, lookupName, emptyRecord, okP, posixOf, joinSlash, endsWithSlash,
    sortKids, insertKid,
    env6, tree6, ctxEmpty, hasName, injectOne, stripSlashes, FsTree.isDir,
    FsTree.name]

/-- C10: a per-node bucket entry is looked up exclusively in the inline
registry `PROCESSORS` (`self._processors`), whatever the phase: a name
absent from it — even one registered among the pre- or post-processor
registries of the environment, which are universally quantified here —
yields outcome `failed` with the unregistered note and no invocation.
The pre/post registries are consulted exactly for the single global
pre hook and the single global post hook: the hook is invoked if and
only if its configured name is registered there. -/
theorem claim10_registry_separation (env : Env) (hc : env.cancel = fun _ => false)
    (nm : String) (cfg : Config) (rel : List String) (ph : String) (st : EngSt)
    (hnot : lookupName env.procs nm = Option.none) :
    (∃ ws, (execList env [(nm, cfg)] rel ph st).1.ctx.metadata
        = setMeta st.ctx.metadata (partsKey rel)
            ⟨[nm], [cfg], ["failed"], Option.none, ws, []⟩
      ∧ (nm ++ ": 未注册处理器") ∈ ws)
    ∧ (execList env [(nm, cfg)] rel ph st).2 = [Ev.poll false, Ev.attempt ph nm rel]
    ∧ (∀ gname st', env.cfg.pre_process = some gname →
        ((Ev.ginvoke gname ∈ (globalPre env st').2.1) ↔ hasName env.preReg gname = true))
    ∧ (∀ gname st', env.cfg.post_process = some gname →
        ((Ev.ginvoke gname ∈ (globalPost env st').2) ↔ hasName env.postReg gname = true)) := by
  obtain ⟨ocs, ws, h1, h2, h3, h4, h5, h6, h7, h8, h9⟩ :=
    execList_master env rel ph hc [(nm, cfg)] st
  have hocs : ocs = ["failed"] := by
    cases h5 with
    | cons hf ht =>
        cases ht
        rw [hf hnot]
  refine ⟨⟨ws, ?_, h6 (nm, cfg) (by simp) hnot⟩, ?_, ?_, ?_⟩
  · rw [h1, hocs]
    simp
  · rw [h3]
    simp [execEvs, hasName_false env.procs nm hnot]
  · intro gname st' hpre
    rw [globalPre, hpre]
    simp only [pollSt, hc]
    cases hg : lookupName env.preReg gname with
    | none =>
        simp [hasName, hg]
    | some g =>
        simp [hasName, hg]
  · intro gname st' hpost
    rw [globalPost]
    simp only [pollSt, hc, hpost]
    cases hg : lookupName env.postReg gname with
    | none =>
        simp [hasName, hg]
    | some g =>
        simp [hasName, hg]

/-- C10 (witness): `claim10_registry_separation` at `env10`, whose name
`x` is registered only among the pre-processors: as a bucket entry it is
`failed`/unregistered, while the global pre hook `x` is invoked. -/
theorem claim10_witness :
    (env10.cancel = fun _ => false)
    ∧ lookupName env10.procs "x" = Option.none
    ∧ (execList env10 [("x", [])] [] "pre" ⟨ctxEmpty, 0, 0⟩).2
        = [Ev.poll false, Ev.attempt "pre" "x" []]
    ∧ Ev.ginvoke "x" ∈ (globalPre env10 ⟨ctxEmpty, 0, 0⟩).2.1 := by
  have h := claim10_registry_separation env10 rfl "x" [] [] "pre" ⟨ctxEmpty, 0, 0⟩ rfl
  refine ⟨rfl, rfl, h.2.1, ?_⟩
  exact (h.2.2.1 "x" ⟨ctxEmpty, 0, 0⟩ rfl).mpr rfl

/-! ## Cancellation-free traversal lemmas -/

theorem execList_step (env : Env) (rel : List String) (ph : String)
    (hc : env.cancel = fun _ => false) (procs : List (String × Config)) (st : EngSt) :
    (execList env procs rel ph st).1.step = st.step + procs.length := by
  obtain ⟨_, _, _, h2, _⟩ := execList_master env rel ph hc procs st
  exact h2

theorem execList_trace (env : Env) (rel : List String) (ph : String)
    (hc : env.cancel = fun _ => false) (procs : List (String × Config)) (st : EngSt) :
    (execList env procs rel ph st).2 = execEvs env procs rel ph := by
  obtain ⟨_, _, _, _, h3, _⟩ := execList_master env rel ph hc procs st
  exact h3

theorem attemptCount_append (a b : List Ev) :
    attemptCount (a ++ b) = attemptCount a + attemptCount b := by
  simp [attemptCount, List.filter_append]

theorem execEvs_attempts (env : Env) (procs : List (String × Config))
    (rel : List String) (ph : String) :
    attemptCount (execEvs env procs rel ph) = procs.length := by
  induction procs with
  | nil => rfl
  | cons pc rest ih =>
      simp only [execEvs] at ih ⊢
      rw [List.flatMap_cons]
      by_cases hn : hasName env.procs pc.1 = true
      · rw [if_pos hn]
        simp [attemptCount, isAttempt, List.filter_cons, List.filter_append] at ih ⊢
        omega
      · rw [if_neg hn]
        simp [attemptCount, isAttempt, List.filter_cons, List.filter_append] at ih ⊢
        omega

theorem execPhase_step (env : Env) (rel : List String) (ph : String)
    (hc : env.cancel = fun _ => false) (procs : List (String × Config)) (st : EngSt) :
    (execPhase env procs rel ph st).1.step = st.step + procs.length := by
  rw [execPhase]
  by_cases he : procs.isEmpty
  · rw [if_pos he]
    have := List.isEmpty_iff.mp he
    subst this
    rfl
  · rw [if_neg he]
    exact execList_step env rel ph hc procs st

theorem execPhase_trace (env : Env) (rel : List String) (ph : String)
    (hc : env.cancel = fun _ => false) (procs : List (String × Config)) (st : EngSt) :
    (execPhase env procs rel ph st).2 = execEvs env procs rel ph := by
  rw [execPhase]
  by_cases he : procs.isEmpty
  · rw [if_pos he]
    have := List.isEmpty_iff.mp he
    subst this
    rfl
  · rw [if_neg he]
    exact execList_trace env rel ph hc procs st

theorem globalPre_cf (env : Env) (st : EngSt) (hc : env.cancel = fun _ => false) :
    (globalPre env st).2.2 = false
    ∧ (globalPre env st).1.step = st.step + (if env.cfg.pre_process.isSome then 1 else 0)
    ∧ attemptCount (globalPre env st).2.1
        = (if env.cfg.pre_process.isSome then 1 else 0) := by
  cases hp : env.cfg.pre_process with
  | none => simp [globalPre, hp, attemptCount]
  | some name =>
      simp only [globalPre, hp, pollSt, hc]
      cases hg : lookupName env.preReg name with
      | none => simp [hg, attemptCount, isAttempt]
      | some g => simp [hg, attemptCount, isAttempt]

theorem globalPost_cf (env : Env) (st : EngSt) (hc : env.cancel = fun _ => false) :
    (globalPost env st).1.step = st.step + (if env.cfg.post_process.isSome then 1 else 0)
    ∧ attemptCount (globalPost env st).2
        = (if env.cfg.post_process.isSome then 1 else 0) := by
  cases hp : env.cfg.post_process with
  | none => simp [globalPost, hp, pollSt, hc, attemptCount, isAttempt]
  | some name =>
      simp only [globalPost, hp, pollSt, hc]
      cases hg : lookupName env.postReg name with
      | none => simp [hg, attemptCount, isAttempt]
      | some g => simp [hg, attemptCount, isAttempt]

mutual

theorem processRec_cf (env : Env) (hc : env.cancel = fun _ => false)
    (t : FsTree) (rel : List String) (st : EngSt) :
    (processRec env t rel st).1.step = st.step + countTree env t rel
    ∧ (processRec env t rel st).2 = specTrace env t rel := by
  cases t with
  | file n =>
      simp only [processRec, countTree, specTrace, FsTree.isDir]
      constructor
      · rw [execPhase_step env rel "post" hc, execPhase_step env rel "pre" hc]
        simp only [List.length_append]
        omega
      · rw [execPhase_trace env rel "post" hc, execPhase_trace env rel "pre" hc]
        simp
  | dir n readable cs =>
      simp only [processRec, countTree, specTrace, FsTree.isDir]
      by_cases hrd : readable = true
      · simp only [if_pos hrd]
        obtain ⟨ha, hs, ht⟩ := childLoop_cf env hc (sortKids cs) rel
          (execPhase env ((getProcessorsForPath env rel true).pre
            ++ (getProcessorsForPath env rel true).inl) rel "pre" st).1
        simp only [ha, Bool.false_eq_true, if_false]
        constructor
        · rw [execPhase_step env rel "post" hc, hs, execPhase_step env rel "pre" hc]
          simp only [List.length_append]
          omega
        · rw [execPhase_trace env rel "post" hc, ht, execPhase_trace env rel "pre" hc]
          try simp [List.append_assoc]
      · simp only [if_neg hrd]
        simp only [Bool.false_eq_true, if_false]
        constructor
        · rw [execPhase_step env rel "post" hc, execPhase_step env rel "pre" hc]
          simp only [List.length_append]
          omega
        · rw [execPhase_trace env rel "post" hc, execPhase_trace env rel "pre" hc]
          try simp
termination_by sizeOf t
decreasing_by
  simp only [sizeOf_sortKids, FsTree.dir.sizeOf_spec]
  omega

theorem childLoop_cf (env : Env) (hc : env.cancel = fun _ => false)
    (kids : List FsTree) (rel : List String) (st : EngSt) :
    (childLoop env kids rel st).2.2 = false
    ∧ (childLoop env kids rel st).1.step = st.step + countKids env kids rel
    ∧ (childLoop env kids rel st).2.1 = specKids env kids rel := by
  cases kids with
  | nil => simp [childLoop, countKids, specKids]
  | cons c rest =>
      simp only [childLoop, countKids, specKids, pollSt, hc]
      simp only [Bool.false_eq_true, if_false]
      obtain ⟨hs, ht⟩ := processRec_cf env hc c (rel ++ [c.name])
        { st with polls := st.polls + 1 }
      obtain ⟨ha', hs', ht'⟩ := childLoop_cf env hc rest rel
        (processRec env c (rel ++ [c.name]) { st with polls := st.polls + 1 }).1
      refine ⟨ha', ?_, ?_⟩
      · rw [hs', hs]
        dsimp only
        omega
      · rw [ht', ht]
termination_by sizeOf kids

end

mutual

theorem specTrace_attempts (env : Env) (t : FsTree) (rel : List String) :
    attemptCount (specTrace env t rel) = countTree env t rel := by
  cases t with
  | file n =>
      simp only [specTrace, countTree, FsTree.isDir]
      rw [attemptCount_append, attemptCount_append, execEvs_attempts, execEvs_attempts]
      simp only [attemptCount, List.filter_nil, List.length_nil, List.length_append]
      omega
  | dir n readable cs =>
      simp only [specTrace, countTree, FsTree.isDir]
      rw [attemptCount_append, attemptCount_append, execEvs_attempts, execEvs_attempts]
      have hkid : attemptCount (if readable = true then specKids env (sortKids cs) rel else [])
          = (if readable = true then countKids env (sortKids cs) rel else 0) := by
        by_cases hrd : readable = true
        · rw [if_pos hrd, if_pos hrd]
          exact specKids_attempts env (sortKids cs) rel
        · rw [if_neg hrd, if_neg hrd]
          rfl
      rw [hkid]
      simp only [List.length_append]
      omega
termination_by sizeOf t
decreasing_by
  simp only [sizeOf_sortKids, FsTree.dir.sizeOf_spec]
  omega

theorem specKids_attempts (env : Env) (kids : List FsTree) (rel : List String) :
    attemptCount (specKids env kids rel) = countKids env kids rel := by
  cases kids with
  | nil => simp [specKids, countKids, attemptCount]
  | cons c rest =>
      simp only [specKids, countKids]
      have h1 := specTrace_attempts env c (rel ++ [c.name])
      have h2 := specKids_attempts env rest rel
      simp [attemptCount, isAttempt, List.filter_cons, List.filter_append] at h1 h2 ⊢
      omega
termination_by sizeOf kids

end

/-- C1: for every configuration, registry, tree and cancellation-free
run, the live pass makes exactly `totalSteps` invocation attempts — where
`totalSteps` is the dry count over the identical traversal and resolution
(the sum of all bucket sizes over all nodes, plus one per configured
global hook) — and the final value of the step counter equals
`totalSteps` exactly. -/
theorem claim1_total_steps_exact (env : Env) (t : FsTree) (ctx0 : Ctx)
    (hc : env.cancel = fun _ => false) :
    (run env t ctx0).2.1 = totalSteps env t
    ∧ attemptCount (run env t ctx0).2.2 = totalSteps env t := by
  obtain ⟨hg1, hg2, hg3⟩ := globalPre_cf env ⟨ctx0, 0, 0⟩ hc
  obtain ⟨hs, ht⟩ := processRec_cf env hc t [] (globalPre env ⟨ctx0, 0, 0⟩).1
  obtain ⟨hp1, hp2⟩ := globalPost_cf env
    (processRec env t [] (globalPre env ⟨ctx0, 0, 0⟩).1).1 hc
  have hrun : run env t ctx0
      = ((globalPost env (processRec env t [] (globalPre env ⟨ctx0, 0, 0⟩).1).1).1.ctx,
         (globalPost env (processRec env t [] (globalPre env ⟨ctx0, 0, 0⟩).1).1).1.step,
         (globalPre env ⟨ctx0, 0, 0⟩).2.1
           ++ (processRec env t [] (globalPre env ⟨ctx0, 0, 0⟩).1).2
           ++ (globalPost env (processRec env t [] (globalPre env ⟨ctx0, 0, 0⟩).1).1).2) := by
    rw [run, hg1]
    simp
  rw [hrun]
  dsimp only at hg2 hg3 hp1 hp2 hs ht ⊢
  constructor
  · rw [hp1, hs, hg2, totalSteps]
    omega
  · rw [attemptCount_append, attemptCount_append, hg3, hp2, ht,
      specTrace_attempts, totalSteps]

/-- C1 (witness): `claim1_total_steps_exact` at `env6`/`tree6`: one
matching processor, no hooks — one step planned, one attempted. -/
theorem claim1_witness :
    (env6.cancel = fun _ => false)
    ∧ (run env6 tree6 ctxEmpty).2.1 = totalSteps env6 tree6 := by
  exact ⟨rfl, (claim1_total_steps_exact env6 tree6 ctxEmpty rfl).1⟩

/-- C5: cancellation-free traversal is depth-first pre-order with
enter/exit symmetry: every visit's event trace equals `specTrace` — the
`pre ++ inline` bucket events on entry, then the traces of the children
in sorted name order (a readable directory; an unreadable one contributes
no children yet still gets its own buckets, and a failing child listing
never disturbs the rest since it is confined to that node), and the
`post` bucket events only after every descendant's events.  In the
concrete `D`/`F` scenario — directory `D` holding file `F`, `F` with an
inline action and `D` with a post action — the invocations happen in the
order `F` then `D:post`. -/
theorem claim5_traversal_order (env : Env) (hc : env.cancel = fun _ => false) :
    (∀ t rel st, (processRec env t rel st).2 = specTrace env t rel)
    ∧ (run envDF treeDF ctxEmpty).2.2.filter isInvoke
        = [Ev.invoke "pre" "fAct" ["F"], Ev.invoke "post" "dAct" []] := by
  constructor
  · intro t rel st
    exact (processRec_cf env hc t rel st).2
  · simp [run, globalPre, globalPost, processRec, childLoop, execPhase, execList, execLoop,
      getProcessorsForPath, collectCands, matchRule, pollSt, sortDesc, insertDesc,
      ruleContrib, reservedKey, partsKey, partsKeyAux, setMeta, setWalk, alistSet,
      alistGet, lookupName, emptyRecord, okP, posixOf, joinSlash, endsWithSlash,
      sortKids, insertKid, envDF, treeDF, ctxEmpty, hasName, injectOne, stripSlashes,
      FsTree.isDir, FsTree.name, isInvoke]

/-- C5 (witness): `claim5_traversal_order` at `envDF`: the visit trace of
the `D`/`F` tree equals its specified enter/exit trace. -/
theorem claim5_witness :
    (envDF.cancel = fun _ => false)
    ∧ (processRec envDF treeDF [] ⟨ctxEmpty, 0, 0⟩).2 = specTrace envDF treeDF [] := by
  exact ⟨rfl, (claim5_traversal_order envDF rfl).1 treeDF [] ⟨ctxEmpty, 0, 0⟩⟩

/-! ## Cancellation: no invocation after a reported stop -/

theorem hasStop_cons (e : Ev) (rest : List Ev) :
    hasStop (e :: rest) = ((e == Ev.poll true) || hasStop rest) := by
  cases e with
  | poll r => cases r <;> simp [hasStop]
  | attempt ph n rl => simp [hasStop]
  | invoke ph n rl => simp [hasStop]
  | gattempt n => simp [hasStop]
  | ginvoke n => simp [hasStop]

theorem hasStop_append (a b : List Ev) :
    hasStop (a ++ b) = (hasStop a || hasStop b) := by
  induction a with
  | nil => simp [hasStop]
  | cons e rest ih =>
      rw [List.cons_append, hasStop_cons, hasStop_cons, ih, Bool.or_assoc]

theorem invFree_append (a b : List Ev) :
    invFree (a ++ b) = (invFree a && invFree b) := by
  induction a with
  | nil => simp [invFree]
  | cons e rest ih =>
      rw [List.cons_append, invFree, invFree, ih, Bool.and_assoc]

theorem goodTrace_cons_other (e : Ev) (rest : List Ev) (he : e ≠ Ev.poll true) :
    goodTrace (e :: rest) = goodTrace rest := by
  cases e with
  | poll r =>
      cases r with
      | true => exact absurd rfl he
      | false => simp [goodTrace]
  | attempt ph n rl => simp [goodTrace]
  | invoke ph n rl => simp [goodTrace]
  | gattempt n => simp [goodTrace]
  | ginvoke n => simp [goodTrace]

theorem goodTrace_of_invFree (a : List Ev) (h : invFree a = true) :
    goodTrace a = true := by
  induction a with
  | nil => rfl
  | cons e rest ih =>
      rw [invFree, Bool.and_eq_true] at h
      by_cases he : e = Ev.poll true
      · subst he
        simpa [goodTrace] using h.2
      · rw [goodTrace_cons_other e rest he]
        exact ih h.2

theorem invFree_goodTail (a : List Ev) (h : invFree a = true) :
    ∀ b, invFree b = true → goodTrace (a ++ b) = true := by
  intro b hb
  apply goodTrace_of_invFree
  rw [invFree_append, h, hb]
  rfl

theorem goodTrace_append (a b : List Ev) (ha : goodTrace a = true)
    (hb : goodTrace b = true) (hab : hasStop a = true → invFree b = true) :
    goodTrace (a ++ b) = true := by
  induction a with
  | nil => simpa using hb
  | cons e rest ih =>
      by_cases he : e = Ev.poll true
      · subst he
        have hstop : hasStop (Ev.poll true :: rest) = true := by
          rw [hasStop_cons]
          simp
        have hrest : invFree rest = true := by
          simpa [goodTrace] using ha
        rw [List.cons_append]
        show goodTrace (Ev.poll true :: (rest ++ b)) = true
        have : invFree (rest ++ b) = true := by
          rw [invFree_append, hrest, hab hstop]
          rfl
        simpa [goodTrace] using this
      · rw [List.cons_append, goodTrace_cons_other e _ he]
        rw [goodTrace_cons_other e rest he] at ha
        apply ih ha
        intro hs
        apply hab
        rw [hasStop_cons, hs]
        simp

theorem stepOK_comp (env : Env) (hm : Mono env.cancel) {p0 p1 p2 : Nat}
    {t1 t2 : List Ev} (h1 : StepOK env p0 p1 t1) (h2 : StepOK env p1 p2 t2) :
    StepOK env p0 p2 (t1 ++ t2) := by
  obtain ⟨a1, b1, c1, d1⟩ := h1
  obtain ⟨a2, b2, c2, d2⟩ := h2
  refine ⟨le_trans a1 a2, ?_, ?_, ?_⟩
  · intro hs
    rw [hasStop_append, Bool.or_eq_true] at hs
    rcases hs with h | h
    · exact hm p1 p2 a2 (b1 h)
    · exact b2 h
  · intro hcan
    rw [invFree_append, c1 hcan, c2 (hm p0 p1 a1 hcan)]
    rfl
  · exact goodTrace_append t1 t2 d1 d2 (fun hs => c2 (b1 hs))

theorem stepOK_nil (env : Env) (p : Nat) : StepOK env p p [] := by
  refine ⟨le_refl _, ?_, fun _ => rfl, rfl⟩
  intro h
  simp [hasStop] at h

theorem stepOK_stable (env : Env) (p : Nat) (evs : List Ev)
    (hinv : invFree evs = true) (hstop : hasStop evs = false) :
    StepOK env p p evs := by
  refine ⟨le_refl _, ?_, fun _ => hinv, goodTrace_of_invFree evs hinv⟩
  intro h
  rw [hstop] at h
  cases h

theorem stepOK_poll_true (env : Env) (hm : Mono env.cancel) (p : Nat)
    (hp : env.cancel p = true) (pre : List Ev) (hpre : invFree pre = true) :
    StepOK env p (p + 1) (pre ++ [Ev.poll true]) := by
  refine ⟨Nat.le_succ p, ?_, ?_, ?_⟩
  · intro _
    exact hm p (p + 1) (Nat.le_succ p) hp
  · intro _
    rw [invFree_append, hpre]
    rfl
  · apply goodTrace_append pre [Ev.poll true] (goodTrace_of_invFree pre hpre) rfl
    intro _
    rfl

theorem stepOK_group (env : Env) (p : Nat) (hp : env.cancel p = false)
    (evs : List Ev) (hstop : hasStop evs = false) (hg : goodTrace evs = true) :
    StepOK env p (p + 1) evs := by
  refine ⟨Nat.le_succ p, ?_, ?_, hg⟩
  · intro h
    rw [hstop] at h
    cases h
  · intro h
    rw [h] at hp
    cases hp

theorem execLoop_cons_cancel (env : Env) (rel : List String) (ph : String)
    (key : List String) (nm : String) (cfg : Config) (rest : List (String × Config))
    (md : ExecRecord) (st : EngSt) (hcan : env.cancel st.polls = true) :
    execLoop env rel ph key ((nm, cfg) :: rest) md st
      = ({ st with polls := st.polls + 1 }, [Ev.poll true]) := by
  simp [execLoop, pollSt, hcan]

theorem execLoop_cons_unreg (env : Env) (rel : List String) (ph : String)
    (key : List String) (nm : String) (cfg : Config) (rest : List (String × Config))
    (md : ExecRecord) (st : EngSt) (hcan : env.cancel st.polls = false)
    (hl : lookupName env.procs nm = Option.none) :
    execLoop env rel ph key ((nm, cfg) :: rest) md st
      = ((execLoop env rel ph key rest
            { md with names := md.names ++ [nm], configs := md.configs ++ [cfg],
                      outcomes := md.outcomes ++ ["failed"],
                      warnings := md.warnings ++ [nm ++ ": 未注册处理器"] }
            { st with step := st.step + 1, polls := st.polls + 1,
                      ctx := ⟨st.ctx.pctx,
                        setMeta st.ctx.metadata key
                          { md with names := md.names ++ [nm], configs := md.configs ++ [cfg],
                                    outcomes := md.outcomes ++ ["failed"],
                                    warnings := md.warnings ++ [nm ++ ": 未注册处理器"] }⟩ }).1,
         Ev.poll false :: Ev.attempt ph nm rel ::
           (execLoop env rel ph key rest
            { md with names := md.names ++ [nm], configs := md.configs ++ [cfg],
                      outcomes := md.outcomes ++ ["failed"],
                      warnings := md.warnings ++ [nm ++ ": 未注册处理器"] }
            { st with step := st.step + 1, polls := st.polls + 1,
                      ctx := ⟨st.ctx.pctx,
                        setMeta st.ctx.metadata key
                          { md with names := md.names ++ [nm], configs := md.configs ++ [cfg],
                                    outcomes := md.outcomes ++ ["failed"],
                                    warnings := md.warnings ++ [nm ++ ": 未注册处理器"] }⟩ }).2) := by
  simp [execLoop, pollSt, hcan, hl]

theorem execLoop_cons_reg_ok (env : Env) (rel : List String) (ph : String)
    (key : List String) (nm : String) (cfg : Config) (rest : List (String × Config))
    (md : ExecRecord) (st : EngSt) (p : Processor)
    (hcan : env.cancel st.polls = false)
    (hl : lookupName env.procs nm = some p)
    (hr : (p rel cfg st.ctx.pctx).1 = Option.none) :
    execLoop env rel ph key ((nm, cfg) :: rest) md st
      = ((execLoop env rel ph key rest
            { md with names := md.names ++ [nm], configs := md.configs ++ [cfg],
                      outcomes := md.outcomes ++ ["succeed"] }
            { st with step := st.step + 1, polls := st.polls + 1,
                      ctx := ⟨(p rel cfg st.ctx.pctx).2,
                        setMeta st.ctx.metadata key
                          { md with names := md.names ++ [nm], configs := md.configs ++ [cfg],
                                    outcomes := md.outcomes ++ ["succeed"] }⟩ }).1,
         Ev.poll false :: Ev.attempt ph nm rel :: Ev.invoke ph nm rel ::
           (execLoop env rel ph key rest
            { md with names := md.names ++ [nm], configs := md.configs ++ [cfg],
                      outcomes := md.outcomes ++ ["succeed"] }
            { st with step := st.step + 1, polls := st.polls + 1,
                      ctx := ⟨(p rel cfg st.ctx.pctx).2,
                        setMeta st.ctx.metadata key
                          { md with names := md.names ++ [nm], configs := md.configs ++ [cfg],
                                    outcomes := md.outcomes ++ ["succeed"] }⟩ }).2) := by
  simp [execLoop, pollSt, hcan, hl, hr]

theorem execLoop_cons_reg_err (env : Env) (rel : List String) (ph : String)
    (key : List String) (nm : String) (cfg : Config) (rest : List (String × Config))
    (md : ExecRecord) (st : EngSt) (p : Processor) (e : String)
    (hcan : env.cancel st.polls = false)
    (hl : lookupName env.procs nm = some p)
    (hr : (p rel cfg st.ctx.pctx).1 = some e) :
    execLoop env rel ph key ((nm, cfg) :: rest) md st
      = ((execLoop env rel ph key rest
            { md with names := md.names ++ [nm], configs := md.configs ++ [cfg],
                      outcomes := md.outcomes ++ ["failed"],
                      warnings := md.warnings ++ [nm ++ ": " ++ e] }
            { st with step := st.step + 1, polls := st.polls + 1,
                      ctx := ⟨(p rel cfg st.ctx.pctx).2,
                        setMeta st.ctx.metadata key
                          { md with names := md.names ++ [nm], configs := md.configs ++ [cfg],
                                    outcomes := md.outcomes ++ ["failed"],
                                    warnings := md.warnings ++ [nm ++ ": " ++ e] }⟩ }).1,
         Ev.poll false :: Ev.attempt ph nm rel :: Ev.invoke ph nm rel ::
           (execLoop env rel ph key rest
            { md with names := md.names ++ [nm], configs := md.configs ++ [cfg],
                      outcomes := md.outcomes ++ ["failed"],
                      warnings := md.warnings ++ [nm ++ ": " ++ e] }
            { st with step := st.step + 1, polls := st.polls + 1,
                      ctx := ⟨(p rel cfg st.ctx.pctx).2,
                        setMeta st.ctx.metadata key
                          { md with names := md.names ++ [nm], configs := md.configs ++ [cfg],
                                    outcomes := md.outcomes ++ ["failed"],
                                    warnings := md.warnings ++ [nm ++ ": " ++ e] }⟩ }).2) := by
  simp [execLoop, pollSt, hcan, hl, hr]

theorem execLoop_ok (env : Env) (hm : Mono env.cancel) (rel : List String)
    (ph : String) (key : List String) :
    ∀ (procs : List (String × Config)) (md : ExecRecord) (st : EngSt),
      StepOK env st.polls (execLoop env rel ph key procs md st).1.polls
        (execLoop env rel ph key procs md st).2 := by
  intro procs
  induction procs with
  | nil =>
      intro md st
      simpa [execLoop] using stepOK_nil env st.polls
  | cons pc rest ih =>
      intro md st
      obtain ⟨nm, cfg⟩ := pc
      by_cases hcan : env.cancel st.polls = true
      · rw [execLoop_cons_cancel env rel ph key nm cfg rest md st hcan]
        have h := stepOK_poll_true env hm st.polls hcan [] rfl
        simpa using h
      · simp only [Bool.not_eq_true] at hcan
        cases hl : lookupName env.procs nm with
        | none =>
            rw [execLoop_cons_unreg env rel ph key nm cfg rest md st hcan hl]
            have h1 : StepOK env st.polls (st.polls + 1)
                [Ev.poll false, Ev.attempt ph nm rel] :=
              stepOK_group env st.polls hcan _ rfl rfl
            have h2 := ih
              { md with names := md.names ++ [nm], configs := md.configs ++ [cfg],
                        outcomes := md.outcomes ++ ["failed"],
                        warnings := md.warnings ++ [nm ++ ": 未注册处理器"] }
              { st with step := st.step + 1, polls := st.polls + 1,
                        ctx := ⟨st.ctx.pctx,
                          setMeta st.ctx.metadata key
                            { md with names := md.names ++ [nm], configs := md.configs ++ [cfg],
                                      outcomes := md.outcomes ++ ["failed"],
                                      warnings := md.warnings ++ [nm ++ ": 未注册处理器"] }⟩ }
            dsimp only at h2
            exact stepOK_comp env hm h1 h2
        | some p =>
            cases hr : (p rel cfg st.ctx.pctx).1 with
            | none =>
                rw [execLoop_cons_reg_ok env rel ph key nm cfg rest md st p hcan hl hr]
                have h1 : StepOK env st.polls (st.polls + 1)
                    [Ev.poll false, Ev.attempt ph nm rel, Ev.invoke ph nm rel] :=
                  stepOK_group env st.polls hcan _ rfl rfl
                have h2 := ih
                  { md with names := md.names ++ [nm], configs := md.configs ++ [cfg],
                            outcomes := md.outcomes ++ ["succeed"] }
                  { st with step := st.step + 1, polls := st.polls + 1,
                            ctx := ⟨(p rel cfg st.ctx.pctx).2,
                              setMeta st.ctx.metadata key
                                { md with names := md.names ++ [nm], configs := md.configs ++ [cfg],
                                          outcomes := md.outcomes ++ ["succeed"] }⟩ }
                dsimp only at h2
                exact stepOK_comp env hm h1 h2
            | some e =>
                rw [execLoop_cons_reg_err env rel ph key nm cfg rest md st p e hcan hl hr]
                have h1 : StepOK env st.polls (st.polls + 1)
                    [Ev.poll false, Ev.attempt ph nm rel, Ev.invoke ph nm rel] :=
                  stepOK_group env st.polls hcan _ rfl rfl
                have h2 := ih
                  { md with names := md.names ++ [nm], configs := md.configs ++ [cfg],
                            outcomes := md.outcomes ++ ["failed"],
                            warnings := md.warnings ++ [nm ++ ": " ++ e] }
                  { st with step := st.step + 1, polls := st.polls + 1,
                            ctx := ⟨(p rel cfg st.ctx.pctx).2,
                              setMeta st.ctx.metadata key
                                { md with names := md.names ++ [nm], configs := md.configs ++ [cfg],
                                          outcomes := md.outcomes ++ ["failed"],
                                          warnings := md.warnings ++ [nm ++ ": " ++ e] }⟩ }
                dsimp only at h2
                exact stepOK_comp env hm h1 h2

theorem execList_ok (env : Env) (hm : Mono env.cancel)
    (procs : List (String × Config)) (rel : List String) (ph : String) (st : EngSt) :
    StepOK env st.polls (execList env procs rel ph st).1.polls
      (execList env procs rel ph st).2 := by
  have h := execLoop_ok env hm rel ph (partsKey rel) procs emptyRecord
    { st with ctx := ⟨st.ctx.pctx, setMeta st.ctx.metadata (partsKey rel) emptyRecord⟩ }
  simpa [execList] using h

theorem execPhase_ok (env : Env) (hm : Mono env.cancel)
    (procs : List (String × Config)) (rel : List String) (ph : String) (st : EngSt) :
    StepOK env st.polls (execPhase env procs rel ph st).1.polls
      (execPhase env procs rel ph st).2 := by
  rw [execPhase]
  by_cases he : procs.isEmpty
  · rw [if_pos he]
    exact stepOK_nil env st.polls
  · rw [if_neg he]
    exact execList_ok env hm procs rel ph st

mutual

theorem processRec_ok (env : Env) (hm : Mono env.cancel) (t : FsTree)
    (rel : List String) (st : EngSt) :
    StepOK env st.polls (processRec env t rel st).1.polls
      (processRec env t rel st).2 := by
  cases t with
  | file n =>
      simp only [processRec]
      exact stepOK_comp env hm
        (execPhase_ok env hm ((getProcessorsForPath env rel false).pre
          ++ (getProcessorsForPath env rel false).inl) rel "pre" st)
        (execPhase_ok env hm (getProcessorsForPath env rel false).post rel "post"
          (execPhase env ((getProcessorsForPath env rel false).pre
            ++ (getProcessorsForPath env rel false).inl) rel "pre" st).1)
  | dir n readable cs =>
      simp only [processRec]
      by_cases hrd : readable = true
      · simp only [if_pos hrd]
        by_cases hab : (childLoop env (sortKids cs) rel
            (execPhase env ((getProcessorsForPath env rel true).pre
              ++ (getProcessorsForPath env rel true).inl) rel "pre" st).1).2.2 = true
        · simp only [hab, if_true]
          exact stepOK_comp env hm
            (execPhase_ok env hm ((getProcessorsForPath env rel true).pre
              ++ (getProcessorsForPath env rel true).inl) rel "pre" st)
            (childLoop_ok env hm (sortKids cs) rel
              (execPhase env ((getProcessorsForPath env rel true).pre
                ++ (getProcessorsForPath env rel true).inl) rel "pre" st).1)
        · simp only [Bool.not_eq_true] at hab
          simp only [hab, Bool.false_eq_true, if_false]
          exact stepOK_comp env hm
            (stepOK_comp env hm
              (execPhase_ok env hm ((getProcessorsForPath env rel true).pre
                ++ (getProcessorsForPath env rel true).inl) rel "pre" st)
              (childLoop_ok env hm (sortKids cs) rel
                (execPhase env ((getProcessorsForPath env rel true).pre
                  ++ (getProcessorsForPath env rel true).inl) rel "pre" st).1))
            (execPhase_ok env hm (getProcessorsForPath env rel true).post rel "post"
              (childLoop env (sortKids cs) rel
                (execPhase env ((getProcessorsForPath env rel true).pre
                  ++ (getProcessorsForPath env rel true).inl) rel "pre" st).1).1)
      · simp only [if_neg hrd]
        simp only [Bool.false_eq_true, if_false]
        have h := stepOK_comp env hm
          (execPhase_ok env hm ((getProcessorsForPath env rel true).pre
            ++ (getProcessorsForPath env rel true).inl) rel "pre" st)
          (execPhase_ok env hm (getProcessorsForPath env rel true).post rel "post"
            (execPhase env ((getProcessorsForPath env rel true).pre
              ++ (getProcessorsForPath env rel true).inl) rel "pre" st).1)
        simpa using h
termination_by sizeOf t
decreasing_by
  all_goals simp only [sizeOf_sortKids, FsTree.dir.sizeOf_spec]
  all_goals omega

theorem childLoop_ok (env : Env) (hm : Mono env.cancel) (kids : List FsTree)
    (rel : List String) (st : EngSt) :
    StepOK env st.polls (childLoop env kids rel st).1.polls
      (childLoop env kids rel st).2.1 := by
  cases kids with
  | nil => simpa [childLoop] using stepOK_nil env st.polls
  | cons c rest =>
      by_cases hcan : env.cancel st.polls = true
      · have hbr : childLoop env (c :: rest) rel st
            = ({ st with polls := st.polls + 1 }, [Ev.poll true], true) := by
          simp [childLoop, pollSt, hcan]
        rw [hbr]
        have h := stepOK_poll_true env hm st.polls hcan [] rfl
        simpa using h
      · simp only [Bool.not_eq_true] at hcan
        have hbr : childLoop env (c :: rest) rel st
            = ((childLoop env rest rel
                  (processRec env c (rel ++ [c.name]) { st with polls := st.polls + 1 }).1).1,
               Ev.poll false ::
                 ((processRec env c (rel ++ [c.name]) { st with polls := st.polls + 1 }).2
                   ++ (childLoop env rest rel
                       (processRec env c (rel ++ [c.name]) { st with polls := st.polls + 1 }).1).2.1),
               (childLoop env rest rel
                  (processRec env c (rel ++ [c.name]) { st with polls := st.polls + 1 }).1).2.2) := by
          simp [childLoop, pollSt, hcan]
        rw [hbr]
        have h1 : StepOK env st.polls (st.polls + 1) [Ev.poll false] :=
          stepOK_group env st.polls hcan _ rfl rfl
        have h2 := processRec_ok env hm c (rel ++ [c.name]) { st with polls := st.polls + 1 }
        dsimp only at h2
        have h3 := childLoop_ok env hm rest rel
          (processRec env c (rel ++ [c.name]) { st with polls := st.polls + 1 }).1
        have h := stepOK_comp env hm h1 (stepOK_comp env hm h2 h3)
        simpa using h
termination_by sizeOf kids

end

theorem globalPre_ok (env : Env) (hm : Mono env.cancel) (st : EngSt) :
    StepOK env st.polls (globalPre env st).1.polls (globalPre env st).2.1 := by
  cases hp : env.cfg.pre_process with
  | none => simpa [globalPre, hp] using stepOK_nil env st.polls
  | some name =>
      by_cases hcan : env.cancel st.polls = true
      · have hbr : globalPre env st
            = ({ st with step := st.step + 1, polls := st.polls + 1 },
               [Ev.gattempt name, Ev.poll true], true) := by
          simp [globalPre, hp, pollSt, hcan]
        rw [hbr]
        have h := stepOK_poll_true env hm st.polls hcan [Ev.gattempt name] rfl
        simpa using h
      · simp only [Bool.not_eq_true] at hcan
        cases hg : lookupName env.preReg name with
        | none =>
            have hbr : globalPre env st
                = ({ st with step := st.step + 1, polls := st.polls + 1 },
                   [Ev.gattempt name, Ev.poll false], false) := by
              simp [globalPre, hp, pollSt, hcan, hg]
            rw [hbr]
            have h := stepOK_group env st.polls hcan
              [Ev.gattempt name, Ev.poll false] rfl rfl
            simpa using h
        | some g =>
            have hbr : (globalPre env st).1.polls = st.polls + 1
                ∧ (globalPre env st).2.1 = [Ev.gattempt name, Ev.poll false, Ev.ginvoke name] := by
              constructor <;> simp [globalPre, hp, pollSt, hcan, hg]
            rw [hbr.1, hbr.2]
            exact stepOK_group env st.polls hcan
              [Ev.gattempt name, Ev.poll false, Ev.ginvoke name] rfl rfl

theorem globalPost_ok (env : Env) (hm : Mono env.cancel) (st : EngSt) :
    StepOK env st.polls (globalPost env st).1.polls (globalPost env st).2 := by
  by_cases hcan : env.cancel st.polls = true
  · have hbr : globalPost env st = ({ st with polls := st.polls + 1 }, [Ev.poll true]) := by
      simp [globalPost, pollSt, hcan]
    rw [hbr]
    have h := stepOK_poll_true env hm st.polls hcan [] rfl
    simpa using h
  · simp only [Bool.not_eq_true] at hcan
    cases hp : env.cfg.post_process with
    | none =>
        have hbr : globalPost env st = ({ st with polls := st.polls + 1 }, [Ev.poll false]) := by
          simp [globalPost, pollSt, hcan, hp]
        rw [hbr]
        have h := stepOK_group env st.polls hcan [Ev.poll false] rfl rfl
        simpa using h
    | some name =>
        cases hg : lookupName env.postReg name with
        | none =>
            have hbr : globalPost env st
                = ({ st with step := st.step + 1, polls := st.polls + 1 },
                   [Ev.poll false, Ev.gattempt name]) := by
              simp [globalPost, pollSt, hcan, hp, hg]
            rw [hbr]
            have h := stepOK_group env st.polls hcan
              [Ev.poll false, Ev.gattempt name] rfl rfl
            simpa using h
        | some g =>
            have hbr : (globalPost env st).1.polls = st.polls + 1
                ∧ (globalPost env st).2
                    = [Ev.poll false, Ev.gattempt name, Ev.ginvoke name] := by
              constructor <;> simp [globalPost, pollSt, hcan, hp, hg]
            rw [hbr.1, hbr.2]
            exact stepOK_group env st.polls hcan
              [Ev.poll false, Ev.gattempt name, Ev.ginvoke name] rfl rfl

/-! ## Results are only ever appended -/

theorem execLoop_resM (env : Env) (rel : List String) (ph : String) (key : List String)
    (hres : ∀ nm p, lookupName env.procs nm = some p →
      ∀ r c s, ∃ tl, (p r c s).2.results = s.results ++ tl) :
    ∀ procs md st, ∃ tl,
      (execLoop env rel ph key procs md st).1.ctx.pctx.results
        = st.ctx.pctx.results ++ tl := by
  intro procs
  induction procs with
  | nil =>
      intro md st
      exact ⟨[], by simp [execLoop]⟩
  | cons pc rest ih =>
      intro md st
      obtain ⟨nm, cfg⟩ := pc
      by_cases hcan : env.cancel st.polls = true
      · rw [execLoop_cons_cancel env rel ph key nm cfg rest md st hcan]
        exact ⟨[], by simp⟩
      · simp only [Bool.not_eq_true] at hcan
        cases hl : lookupName env.procs nm with
        | none =>
            rw [execLoop_cons_unreg env rel ph key nm cfg rest md st hcan hl]
            obtain ⟨tl, htl⟩ := ih
              { md with names := md.names ++ [nm], configs := md.configs ++ [cfg],
                        outcomes := md.outcomes ++ ["failed"],
                        warnings := md.warnings ++ [nm ++ ": 未注册处理器"] }
              { st with step := st.step + 1, polls := st.polls + 1,
                        ctx := ⟨st.ctx.pctx,
                          setMeta st.ctx.metadata key
                            { md with names := md.names ++ [nm], configs := md.configs ++ [cfg],
                                      outcomes := md.outcomes ++ ["failed"],
                                      warnings := md.warnings ++ [nm ++ ": 未注册处理器"] }⟩ }
            exact ⟨tl, htl⟩
        | some p =>
            obtain ⟨tl1, h1⟩ := hres nm p hl rel cfg st.ctx.pctx
            cases hr : (p rel cfg st.ctx.pctx).1 with
            | none =>
                rw [execLoop_cons_reg_ok env rel ph key nm cfg rest md st p hcan hl hr]
                obtain ⟨tl2, h2⟩ := ih
                  { md with names := md.names ++ [nm], configs := md.configs ++ [cfg],
                            outcomes := md.outcomes ++ ["succeed"] }
                  { st with step := st.step + 1, polls := st.polls + 1,
                            ctx := ⟨(p rel cfg st.ctx.pctx).2,
                              setMeta st.ctx.metadata key
                                { md with names := md.names ++ [nm], configs := md.configs ++ [cfg],
                                          outcomes := md.outcomes ++ ["succeed"] }⟩ }
                refine ⟨tl1 ++ tl2, ?_⟩
                dsimp only at h2
                rw [h2, h1, List.append_assoc]
            | some e =>
                rw [execLoop_cons_reg_err env rel ph key nm cfg rest md st p e hcan hl hr]
                obtain ⟨tl2, h2⟩ := ih
                  { md with names := md.names ++ [nm], configs := md.configs ++ [cfg],
                            outcomes := md.outcomes ++ ["failed"],
                            warnings := md.warnings ++ [nm ++ ": " ++ e] }
                  { st with step := st.step + 1, polls := st.polls + 1,
                            ctx := ⟨(p rel cfg st.ctx.pctx).2,
                              setMeta st.ctx.metadata key
                                { md with names := md.names ++ [nm], configs := md.configs ++ [cfg],
                                          outcomes := md.outcomes ++ ["failed"],
                                          warnings := md.warnings ++ [nm ++ ": " ++ e] }⟩ }
                refine ⟨tl1 ++ tl2, ?_⟩
                dsimp only at h2
                rw [h2, h1, List.append_assoc]

theorem execPhase_resM (env : Env) (rel : List String) (ph : String)
    (hres : ∀ nm p, lookupName env.procs nm = some p →
      ∀ r c s, ∃ tl, (p r c s).2.results = s.results ++ tl)
    (procs : List (String × Config)) (st : EngSt) :
    ∃ tl, (execPhase env procs rel ph st).1.ctx.pctx.results
      = st.ctx.pctx.results ++ tl := by
  rw [execPhase]
  by_cases he : procs.isEmpty
  · rw [if_pos he]
    exact ⟨[], by simp⟩
  · rw [if_neg he]
    have h := execLoop_resM env rel ph (partsKey rel) hres procs emptyRecord
      { st with ctx := ⟨st.ctx.pctx, setMeta st.ctx.metadata (partsKey rel) emptyRecord⟩ }
    simpa [execList] using h

mutual

theorem processRec_resM (env : Env)
    (hres : ∀ nm p, lookupName env.procs nm = some p →
      ∀ r c s, ∃ tl, (p r c s).2.results = s.results ++ tl)
    (t : FsTree) (rel : List String) (st : EngSt) :
    ∃ tl, (processRec env t rel st).1.ctx.pctx.results
      = st.ctx.pctx.results ++ tl := by
  cases t with
  | file n =>
      simp only [processRec]
      obtain ⟨t1, h1⟩ := execPhase_resM env rel "pre" hres
        ((getProcessorsForPath env rel false).pre
          ++ (getProcessorsForPath env rel false).inl) st
      obtain ⟨t2, h2⟩ := execPhase_resM env rel "post" hres
        (getProcessorsForPath env rel false).post
        (execPhase env ((getProcessorsForPath env rel false).pre
          ++ (getProcessorsForPath env rel false).inl) rel "pre" st).1
      exact ⟨t1 ++ t2, by rw [h2, h1, List.append_assoc]⟩
  | dir n readable cs =>
      simp only [processRec]
      by_cases hrd : readable = true
      · simp only [if_pos hrd]
        obtain ⟨t1, h1⟩ := execPhase_resM env rel "pre" hres
          ((getProcessorsForPath env rel true).pre
            ++ (getProcessorsForPath env rel true).inl) st
        obtain ⟨t2, h2⟩ := childLoop_resM env hres (sortKids cs) rel
          (execPhase env ((getProcessorsForPath env rel true).pre
            ++ (getProcessorsForPath env rel true).inl) rel "pre" st).1
        by_cases hab : (childLoop env (sortKids cs) rel
            (execPhase env ((getProcessorsForPath env rel true).pre
              ++ (getProcessorsForPath env rel true).inl) rel "pre" st).1).2.2 = true
        · simp only [hab, if_true]
          exact ⟨t1 ++ t2, by rw [h2, h1, List.append_assoc]⟩
        · simp only [Bool.not_eq_true] at hab
          simp only [hab, Bool.false_eq_true, if_false]
          obtain ⟨t3, h3⟩ := execPhase_resM env rel "post" hres
            (getProcessorsForPath env rel true).post
            (childLoop env (sortKids cs) rel
              (execPhase env ((getProcessorsForPath env rel true).pre
                ++ (getProcessorsForPath env rel true).inl) rel "pre" st).1).1
          exact ⟨t1 ++ (t2 ++ t3),
            by rw [h3, h2, h1, List.append_assoc, List.append_assoc]⟩
      · simp only [if_neg hrd]
        simp only [Bool.false_eq_true, if_false]
        obtain ⟨t1, h1⟩ := execPhase_resM env rel "pre" hres
          ((getProcessorsForPath env rel true).pre
            ++ (getProcessorsForPath env rel true).inl) st
        obtain ⟨t3, h3⟩ := execPhase_resM env rel "post" hres
          (getProcessorsForPath env rel true).post
          (execPhase env ((getProcessorsForPath env rel true).pre
            ++ (getProcessorsForPath env rel true).inl) rel "pre" st).1
        exact ⟨t1 ++ t3, by rw [h3, h1, List.append_assoc]⟩
termination_by sizeOf t
decreasing_by
  all_goals simp only [sizeOf_sortKids, FsTree.dir.sizeOf_spec]
  all_goals omega

theorem childLoop_resM (env : Env)
    (hres : ∀ nm p, lookupName env.procs nm = some p →
      ∀ r c s, ∃ tl, (p r c s).2.results = s.results ++ tl)
    (kids : List FsTree) (rel : List String) (st : EngSt) :
    ∃ tl, (childLoop env kids rel st).1.ctx.pctx.results
      = st.ctx.pctx.results ++ tl := by
  cases kids with
  | nil => exact ⟨[], by simp [childLoop]⟩
  | cons c rest =>
      by_cases hcan : env.cancel st.polls = true
      · have hbr : childLoop env (c :: rest) rel st
            = ({ st with polls := st.polls + 1 }, [Ev.poll true], true) := by
          simp [childLoop, pollSt, hcan]
        rw [hbr]
        exact ⟨[], by simp⟩
      · simp only [Bool.not_eq_true] at hcan
        have hbr : (childLoop env (c :: rest) rel st).1
            = (childLoop env rest rel
                (processRec env c (rel ++ [c.name]) { st with polls := st.polls + 1 }).1).1 := by
          simp [childLoop, pollSt, hcan]
        rw [hbr]
        obtain ⟨t1, h1⟩ := processRec_resM env hres c (rel ++ [c.name])
          { st with polls := st.polls + 1 }
        obtain ⟨t2, h2⟩ := childLoop_resM env hres rest rel
          (processRec env c (rel ++ [c.name]) { st with polls := st.polls + 1 }).1
        dsimp only at h1
        exact ⟨t1 ++ t2, by rw [h2, h1, List.append_assoc]⟩
termination_by sizeOf kids

end

theorem globalPre_resM (env : Env)
    (hres : ∀ nm g, lookupName env.preReg nm = some g →
      ∀ c s, ∃ tl, (g c s).2.results = s.results ++ tl) (st : EngSt) :
    ∃ tl, (globalPre env st).1.ctx.pctx.results = st.ctx.pctx.results ++ tl := by
  cases hp : env.cfg.pre_process with
  | none => exact ⟨[], by simp [globalPre, hp]⟩
  | some name =>
      by_cases hcan : env.cancel st.polls = true
      · exact ⟨[], by simp [globalPre, hp, pollSt, hcan]⟩
      · simp only [Bool.not_eq_true] at hcan
        cases hg : lookupName env.preReg name with
        | none => exact ⟨[], by simp [globalPre, hp, pollSt, hcan, hg]⟩
        | some g =>
            obtain ⟨tl, htl⟩ := hres name g hg env.cfg.config_pre st.ctx.pctx
            refine ⟨tl, ?_⟩
            have hbr : (globalPre env st).1.ctx.pctx
                = (g env.cfg.config_pre st.ctx.pctx).2 := by
              simp [globalPre, hp, pollSt, hcan, hg]
            rw [hbr, htl]

theorem globalPost_resM (env : Env)
    (hres : ∀ nm g, lookupName env.postReg nm = some g →
      ∀ c s, ∃ tl, (g c s).2.results = s.results ++ tl) (st : EngSt) :
    ∃ tl, (globalPost env st).1.ctx.pctx.results = st.ctx.pctx.results ++ tl := by
  by_cases hcan : env.cancel st.polls = true
  · exact ⟨[], by simp [globalPost, pollSt, hcan]⟩
  · simp only [Bool.not_eq_true] at hcan
    cases hp : env.cfg.post_process with
    | none => exact ⟨[], by simp [globalPost, pollSt, hcan, hp]⟩
    | some name =>
        cases hg : lookupName env.postReg name with
        | none => exact ⟨[], by simp [globalPost, pollSt, hcan, hp, hg]⟩
        | some g =>
            obtain ⟨tl, htl⟩ := hres name g hg env.cfg.config_post st.ctx.pctx
            refine ⟨tl, ?_⟩
            have hbr : (globalPost env st).1.ctx.pctx
                = (g env.cfg.config_post st.ctx.pctx).2 := by
              simp [globalPost, pollSt, hcan, hp, hg]
            rw [hbr, htl]

/-- C4 (counterexample): a record placed in the context before
cancellation does not always remain intact.  In `env4` the predicate
flips true from the second poll on (monotonically); processor `p` is
invoked and its record (names `[p]`, outcome `succeed`) is stored at key
`"."` — but the node's post bucket executor, entered after the flip,
reinstalls the empty record at that key before its own poll breaks, so
the final metadata holds `[[], [], [], None, [], []]`: the pre-flip
record was destroyed. -/
theorem claim4_counterexample :
    (run env4 (FsTree.file "root") ctxEmpty).1.metadata
      = [(".", NTree.leaf emptyRecord)]
    ∧ Ev.invoke "pre" "p" [] ∈ (run env4 (FsTree.file "root") ctxEmpty).2.2 := by
  constructor <;>
    simp [run, globalPre, globalPost, processRec, childLoop, execPhase, execList, execLoop,
      getProcessorsForPath, collectCands, matchRule, pollSt, sortDesc, insertDesc,
      ruleContrib, reservedKey, partsKey, partsKeyAux, setMeta, setWalk, alistSet,
      alistGet, lookupName, emptyRecord, okP, posixOf, joinSlash, endsWithSlash,
      sortKids, insertKid, env4, ctxEmpty, hasName, injectOne, stripSlashes,
      FsTree.isDir, FsTree.name]

/-- C4 (amended): with a monotone cancellation predicate (one that never
withdraws a reported stop), the predicate is polled before each child
visit and before each processor invocation, and once it reports true no
further processor invocation starts — in the whole run's event trace, no
invocation follows a poll that returned true — while the traversal
returns normally (it is a total function).  Entries appended to the flat
`results` store are never removed by the engine: when every processor and
hook only appends to `results`, the final store extends the initial one.
(The current node's metadata record, however, may still be reset by a
post bucket entered after cancellation — see the counterexample.) -/
theorem claim4_cancellation (env : Env) (t : FsTree) (ctx0 : Ctx)
    (hm : Mono env.cancel) :
    goodTrace (run env t ctx0).2.2 = true
    ∧ (ResultsMono env →
        ∃ tl, (run env t ctx0).1.pctx.results = ctx0.pctx.results ++ tl) := by
  by_cases hab : (globalPre env ⟨ctx0, 0, 0⟩).2.2 = true
  · have hbr : run env t ctx0
        = ((globalPre env ⟨ctx0, 0, 0⟩).1.ctx, (globalPre env ⟨ctx0, 0, 0⟩).1.step,
           (globalPre env ⟨ctx0, 0, 0⟩).2.1) := by
      simp [run, hab]
    rw [hbr]
    constructor
    · exact (globalPre_ok env hm ⟨ctx0, 0, 0⟩).2.2.2
    · intro hres
      obtain ⟨tl, htl⟩ := globalPre_resM env hres.2.1 ⟨ctx0, 0, 0⟩
      exact ⟨tl, htl⟩
  · simp only [Bool.not_eq_true] at hab
    have hbr : run env t ctx0
        = ((globalPost env (processRec env t [] (globalPre env ⟨ctx0, 0, 0⟩).1).1).1.ctx,
           (globalPost env (processRec env t [] (globalPre env ⟨ctx0, 0, 0⟩).1).1).1.step,
           (globalPre env ⟨ctx0, 0, 0⟩).2.1
             ++ (processRec env t [] (globalPre env ⟨ctx0, 0, 0⟩).1).2
             ++ (globalPost env (processRec env t [] (globalPre env ⟨ctx0, 0, 0⟩).1).1).2) := by
      rw [run, hab]
      simp
    rw [hbr]
    constructor
    · have h1 := globalPre_ok env hm ⟨ctx0, 0, 0⟩
      have h2 := processRec_ok env hm t [] (globalPre env ⟨ctx0, 0, 0⟩).1
      have h3 := globalPost_ok env hm
        (processRec env t [] (globalPre env ⟨ctx0, 0, 0⟩).1).1
      exact (stepOK_comp env hm (stepOK_comp env hm h1 h2) h3).2.2.2
    · intro hres
      obtain ⟨t1, h1⟩ := globalPre_resM env hres.2.1 ⟨ctx0, 0, 0⟩
      obtain ⟨t2, h2⟩ := processRec_resM env hres.1 t [] (globalPre env ⟨ctx0, 0, 0⟩).1
      obtain ⟨t3, h3⟩ := globalPost_resM env hres.2.2
        (processRec env t [] (globalPre env ⟨ctx0, 0, 0⟩).1).1
      refine ⟨t1 ++ (t2 ++ t3), ?_⟩
      rw [h3, h2, h1]
      simp [List.append_assoc]

/-- C4 (witness): `claim4_cancellation` at `env4` (whose predicate
`1 ≤ n` is monotone): the run's trace has no invocation after the
reported stop, and with the append-only `okP` processors the results
store extends the (empty) initial one. -/
theorem claim4_witness :
    Mono env4.cancel
    ∧ goodTrace (run env4 (FsTree.file "root") ctxEmpty).2.2 = true := by
  have hm : Mono env4.cancel := by
    intro m n hmn h
    simp only [env4] at h ⊢
    simp only [decide_eq_true_eq] at h ⊢
    omega
  exact ⟨hm, (claim4_cancellation env4 (FsTree.file "root") ctxEmpty hm).1⟩

end BatchProc
